import Mathlib

/-!
Verification of the unified-diff hunk parsing and reconstruction core of
`src/Source/common/diffHunk.ts`.  Strings are modelled as `List Char`;
JavaScript numbers that may become `NaN` are modelled as `Option Int`
(`none` = `NaN`); all other numeric fields are exact integers.
-/

namespace DiffHunkTs

/-- The `DiffChangeType` enum from `diffHunk.ts`. -/
inductive DiffChangeType where
  | Context
  | Add
  | Delete
  | Control
deriving DecidableEq, Repr

/-- The `DiffLine` class: a single typed line of a hunk.  `oldLineNumber` and
`newLineNumber` are JS numbers that can be `NaN` (modelled as `none`). -/
structure DiffLine where
  type : DiffChangeType
  oldLineNumber : Option Int
  newLineNumber : Option Int
  positionInHunk : Int
  raw : List Char
  endwithLineBreak : Bool
deriving DecidableEq, Repr

/-- `DiffLine.text`: the raw line minus its one-character marker
(`substr(1)`). -/
def DiffLine.text (l : DiffLine) : List Char := l.raw.drop 1

/-- The `DiffHunk` class: header fields plus the ordered stored lines. -/
structure DiffHunk where
  oldLineNumber : Option Int
  oldLength : Nat
  newLineNumber : Option Int
  newLength : Nat
  positionInHunk : Int
  diffLines : List DiffLine
deriving DecidableEq, Repr

/-- `getDiffChangeType`: classify a line by its first character; an empty
line (JS `text[0] === undefined`) falls to the default `Control` case. -/
def getDiffChangeType (text : List Char) : DiffChangeType :=
  match text with
  | ' ' :: _ => DiffChangeType.Context
  | '+' :: _ => DiffChangeType.Add
  | '-' :: _ => DiffChangeType.Delete
  | _ => DiffChangeType.Control

/-- `countCarriageReturns`: number of literal `\r` characters in the line. -/
def countCarriageReturns (text : List Char) : Nat := text.count '\r'

/-- Drop a single trailing `\r` (the `length--` step of `LineReader` when the
character before the `\n` is a carriage return). -/
def stripCR (l : List Char) : List Char :=
  match l.getLast? with
  | some '\r' => l.dropLast
  | _ => l

/-- Worker loop for `LineReader`: accumulates the current line (reversed) and
emits it at each `\n`; a terminating `\n` does not produce an extra empty
line (the JS loop condition `index < text.length`). -/
def lrAux : List Char → List Char → List (List Char)
  | acc, [] => [acc.reverse]
  | acc, '\n' :: rest =>
      stripCR acc.reverse :: (if rest.isEmpty then [] else lrAux [] rest)
  | acc, c :: rest => lrAux (c :: acc) rest

/-- The `LineReader` generator: the finite sequence of lines it yields.
Empty input yields no lines. -/
def lineReader : List Char → List (List Char)
  | [] => []
  | l => lrAux [] l

/-- Consume an expected literal character sequence, returning the rest. -/
def expectChars : List Char → List Char → Option (List Char)
  | [], l => some l
  | a :: p, b :: l => if a = b then expectChars p l else none
  | _ :: _, [] => none

/-- Greedy `\d+`/`\d*` scan: the maximal digit run and what follows. -/
def spanDigits (l : List Char) : List Char × List Char :=
  (l.takeWhile Char.isDigit, l.dropWhile Char.isDigit)

/-- Decimal value of a digit string (JS `Number` on the captured group). -/
def natOfDigits (ds : List Char) : Nat :=
  ds.foldl (fun a c => a * 10 + (c.toNat - 48)) 0

/-- `Number(matches[i]) || 1`: an absent group (`NaN`) or an explicit `0`
both yield 1. -/
def jsOr1 : Option Nat → Nat
  | none => 1
  | some 0 => 1
  | some (k + 1) => k + 1

/-- The optional `(,(\d+))?` group of the header regex: a comma must be
followed by at least one digit, otherwise the group is unmatched and
nothing is consumed. -/
def optCommaCount (s : List Char) : Option Nat × List Char :=
  match s with
  | ',' :: rr =>
    let s2 := spanDigits rr
    if s2.1.isEmpty then (none, s) else (some (natOfDigits s2.1), s2.2)
  | _ => (none, s)

/-- The optional `( \+(\d+)(,(\d+)?)?)?` group of the header regex: the
whole new range may be absent, and the digits after its comma are
optional. -/
def optNewRange (s : List Char) : Option Nat × Option Nat × List Char :=
  match s with
  | ' ' :: '+' :: rr =>
    let s3 := spanDigits rr
    if s3.1.isEmpty then (none, none, s)
    else
      match s3.2 with
      | ',' :: rr3 =>
        let s4 := spanDigits rr3
        (some (natOfDigits s3.1),
         if s4.1.isEmpty then none else some (natOfDigits s4.1), s4.2)
      | _ => (some (natOfDigits s3.1), none, s3.2)
  | _ => (none, none, s)

/-- The `DIFF_HUNK_HEADER` regex
`/^@@ \-(\d+)(,(\d+))?( \+(\d+)(,(\d+)?)?)? @@/` as a deterministic matcher.
Returns the captured groups `(matches[1], matches[3], matches[5],
matches[7])`; `none` for an unmatched group. -/
def parseHunkHeader (l : List Char) :
    Option (Nat × Option Nat × Option Nat × Option Nat) :=
  match expectChars ('@' :: '@' :: ' ' :: '-' :: []) l with
  | none => none
  | some r1 =>
    let s1 := spanDigits r1
    if s1.1.isEmpty then none
    else
      let ocr := optCommaCount s1.2
      let nwr := optNewRange ocr.2
      match expectChars (' ' :: '@' :: '@' :: []) nwr.2.2 with
      | none => none
      | some _ => some (natOfDigits s1.1, ocr.1, nwr.1, nwr.2.1)

/-- Set `endwithLineBreak := false` on the last stored line, if any (the
"no newline at end of file" lookback in `parseDiffHunk`). -/
def setLastNoBreak : List DiffLine → List DiffLine
  | [] => []
  | [l] => [{ l with endwithLineBreak := false }]
  | a :: b :: rest => a :: setLastNoBreak (b :: rest)

/-- The mutable loop state of `parseDiffHunk`: hunks already yielded, the
open hunk, the global position counter, and the two line cursors
(`newLine` can be `NaN` when the header had no new range). -/
structure ParseState where
  hunks : List DiffHunk
  cur : Option DiffHunk
  pos : Int
  oldLine : Int
  newLine : Option Int
deriving Repr

/-- One iteration of the `parseDiffHunk` loop on a scanned line. -/
def parseStep (st : ParseState) (line : List Char) : ParseState :=
  match parseHunkHeader line with
  | some (o, oc, m5, m7) =>
    let hunks := st.hunks ++ st.cur.toList
    let pos0 : Int := if st.pos = -1 then 0 else st.pos
    let ctrl : DiffLine :=
      ⟨DiffChangeType.Control, some (-1), some (-1), pos0, line, true⟩
    let h : DiffHunk :=
      ⟨some (o : Int), jsOr1 oc, m5.map (fun n => (n : Int)), jsOr1 m7, pos0,
        [ctrl]⟩
    { hunks := hunks, cur := some h, pos := pos0 + 1,
      oldLine := (o : Int), newLine := m5.map (fun n => (n : Int)) }
  | none =>
    let st' :=
      match st.cur with
      | none => st
      | some c =>
        let t := getDiffChangeType line
        if t = DiffChangeType.Control then
          { st with cur := some { c with diffLines := setLastNoBreak c.diffLines } }
        else
          let dl : DiffLine :=
            ⟨t,
             if t = DiffChangeType.Add then some (-1) else some st.oldLine,
             if t = DiffChangeType.Delete then some (-1) else st.newLine,
             st.pos, line, true⟩
          let lineCount : Int := 1 + (countCarriageReturns line : Int)
          { st with
            cur := some { c with diffLines := c.diffLines ++ [dl] },
            oldLine :=
              match t with
              | DiffChangeType.Context => st.oldLine + lineCount
              | DiffChangeType.Delete => st.oldLine + lineCount
              | _ => st.oldLine,
            newLine :=
              match t with
              | DiffChangeType.Context => st.newLine.map (· + lineCount)
              | DiffChangeType.Add => st.newLine.map (· + lineCount)
              | _ => st.newLine }
    { st' with pos := if st'.pos = -1 then st'.pos else st'.pos + 1 }

/-- Initial state of the `parseDiffHunk` loop. -/
def parseInit : ParseState := ⟨[], none, -1, -1, some (-1)⟩

/-- `parseDiffHunk`: all hunks yielded by the generator, the still-open hunk
flushed at end of input. -/
def parseDiffHunk (diffHunkPatch : List Char) : List DiffHunk :=
  let st := (lineReader diffHunkPatch).foldl parseStep parseInit
  st.hunks ++ st.cur.toList

/-- `parsePatch`: eagerly collects everything `parseDiffHunk` yields. -/
def parsePatch (patch : List Char) : List DiffHunk :=
  parseDiffHunk patch

/-- All stored lines of a hunk list, in emission order. -/
def linesOf (hs : List DiffHunk) : List DiffLine :=
  hs.flatMap (fun h => h.diffLines)

/-- The `positionInHunk` values of all stored lines, in emission order. -/
def hunkPositions (hs : List DiffHunk) : List Int :=
  (linesOf hs).map (fun l => l.positionInHunk)

/-! ### splitIntoSmallerHunks -/

/-- `newHunk` inside `splitIntoSmallerHunks`: a fresh empty hunk anchored at
the given line. -/
def newHunk (fromLine : DiffLine) : DiffHunk :=
  { diffLines := [], newLength := 0, oldLength := 0,
    oldLineNumber := fromLine.oldLineNumber,
    newLineNumber := fromLine.newLineNumber,
    positionInHunk := 0 }

/-- `addLineToHunk`: append the line and bump the length counters. -/
def addLineToHunk (h : DiffHunk) (l : DiffLine) : DiffHunk :=
  let h := { h with diffLines := h.diffLines ++ [l] }
  match l.type with
  | DiffChangeType.Delete => { h with oldLength := h.oldLength + 1 }
  | DiffChangeType.Add => { h with newLength := h.newLength + 1 }
  | DiffChangeType.Context =>
      { h with oldLength := h.oldLength + 1, newLength := h.newLength + 1 }
  | DiffChangeType.Control => h

/-- `hunkHasChanges`: some stored line is not `Context`. -/
def hunkHasChanges (h : DiffHunk) : Bool :=
  h.diffLines.any (fun l => !(l.type == DiffChangeType.Context))

/-- `hunkHasSandwichedChanges`: has changes and the last stored line is
`Context` (an out-of-range last index in JS yields `undefined`, which fails
the comparison, matching the `none` case). -/
def hunkHasSandwichedChanges (h : DiffHunk) : Bool :=
  hunkHasChanges h &&
    (match h.diffLines.getLast? with
     | some l => l.type == DiffChangeType.Context
     | none => false)

/-- Loop state of `splitIntoSmallerHunks`. -/
structure SplitState where
  out : List DiffHunk
  cur : Option DiffHunk
  next : Option DiffHunk
deriving Repr

/-- One iteration of the `splitIntoSmallerHunks` loop on one input line.
`S.next.getD (newHunk line)` models the non-null assertion `nextHunk!`
(proved unreachable with `next = none`). -/
def splitStep (S : SplitState) (line : DiffLine) : SplitState :=
  if line.type = DiffChangeType.Context then
    let c1 := addLineToHunk (S.cur.getD (newHunk line)) line
    if hunkHasSandwichedChanges c1 then
      let n1 := addLineToHunk (S.next.getD (newHunk line)) line
      { S with cur := some c1, next := some n1 }
    else
      { S with cur := some c1 }
  else
    match S.cur with
    | none => S
    | some c =>
      let T : List DiffHunk × DiffHunk × Option DiffHunk :=
        if hunkHasSandwichedChanges c then
          (S.out ++ [c], S.next.getD (newHunk line), none)
        else (S.out, c, S.next)
      if line.type = DiffChangeType.Delete ∨ line.type = DiffChangeType.Add then
        { out := T.1, cur := some (addLineToHunk T.2.1 line), next := T.2.2 }
      else
        { out := T.1, cur := some T.2.1, next := T.2.2 }

/-- Flush the pending hunk at the end of the split loop. -/
def splitFinish (S : SplitState) : List DiffHunk :=
  S.out ++ S.cur.toList

/-- `splitIntoSmallerHunks`: split a hunk on context lines, duplicating
boundary context. -/
def splitIntoSmallerHunks (hunk : DiffHunk) : List DiffHunk :=
  splitFinish (hunk.diffLines.foldl splitStep ⟨[], none, none⟩)

/-- Occurrences of a line in the flushed part of the split state: the
output hunks plus the current hunk (what `splitFinish` would return). -/
def countQ (x : DiffLine) (S : SplitState) : Nat :=
  (linesOf (S.out ++ S.cur.toList)).count x

/-- Occurrences of a line in the pending `next` hunk of the split state. -/
def countN (x : DiffLine) (S : SplitState) : Nat :=
  (linesOf S.next.toList).count x

/-- The loop invariant of `splitIntoSmallerHunks` after processing the
prefix `pre` of the input lines. -/
def SplitInv (pre : List DiffLine) (S : SplitState) : Prop :=
  (S.cur = none ↔ ∀ l ∈ pre, l.type ≠ DiffChangeType.Context)
  ∧ (S.cur = none → S.out = [] ∧ S.next = none)
  ∧ (∀ nh, S.next = some nh →
      (∀ l ∈ nh.diffLines, l.type = DiffChangeType.Context)
      ∧ ∃ c, S.cur = some c ∧ hunkHasSandwichedChanges c = true)
  ∧ (∀ c, S.cur = some c → hunkHasSandwichedChanges c = true →
      S.next ≠ none)
  ∧ (∀ x : DiffLine,
      (pre.count x = 0 → countQ x S = 0 ∧ countN x S = 0)
      ∧ (pre.count x = 1 →
          ((x.type = DiffChangeType.Add ∨ x.type = DiffChangeType.Delete) →
            countQ x S
              = (if x ∈ pre.takeWhile
                    (fun l => !(l.type == DiffChangeType.Context))
                 then 0 else 1)
            ∧ countN x S = 0)
          ∧ (x.type = DiffChangeType.Context →
              1 ≤ countQ x S ∧ countQ x S + countN x S ≤ 2)))

/-! ### getModifiedContentFromDiffHunk -/

/-- `originalContent.split(/\r?\n/)`: split on `\n`, consuming the single
`\r` directly before it; always at least one (possibly empty) piece. -/
def splitRN : List Char → List (List Char)
  | [] => [[]]
  | '\r' :: '\n' :: rest => [] :: splitRN rest
  | '\n' :: rest => [] :: splitRN rest
  | c :: rest =>
    match splitRN rest with
    | [] => [[c]]
    | l :: ls => (c :: l) :: ls

/-- `right.join("\n")` over string pieces. -/
def joinNL : List (List Char) → List Char
  | [] => []
  | [l] => l
  | l :: l' :: ls => l ++ '\n' :: joinNL (l' :: ls)

/-- The copy loop `for (j = lo; j <= hi; j++) right.push(left[j-1])`; an
out-of-range read is JS `undefined`, which `join` renders as the empty
string, hence the `[]` default. -/
def pushRange (left : List (List Char)) (lo hi : Int) : List (List Char) :=
  (List.range (hi - lo + 1).toNat).map
    (fun k => left.getD ((lo - 1).toNat + k) [])

/-- The per-hunk body of the reconstruction loop: copied unchanged lines,
then the hunk's `Add`/`Context` texts; threads `lastCommonLine` (an
`Option Int`, `none` when a malformed header made it `NaN`). -/
def applyHunks (left : List (List Char)) :
    List DiffHunk → Option Int → List (List Char) × Option Int
  | [], lc => ([], lc)
  | h :: rest, lc =>
    let copy : List (List Char) :=
      match lc, h.oldLineNumber with
      | some l, some os => pushRange left (l + 1) (os - 1)
      | _, _ => []
    let body : List (List Char) :=
      h.diffLines.filterMap (fun dl =>
        match dl.type with
        | DiffChangeType.Delete => none
        | DiffChangeType.Control => none
        | _ => some dl.text)
    let lc' : Option Int :=
      match h.oldLineNumber with
      | some os => some (os + (h.oldLength : Int) - 1)
      | none => none
    let r := applyHunks left rest lc'
    (copy ++ body ++ r.1, r.2)

/-- `getModifiedContentFromDiffHunk`: reconstruct the new file content from
the original content and a patch. -/
def getModifiedContentFromDiffHunk (originalContent patch : List Char) :
    List Char :=
  let left := splitRN originalContent
  let diffHunks := parsePatch patch
  let res := applyHunks left diffHunks (some 0)
  let lastDiffLineEndsWithNewline : Bool :=
    match diffHunks.getLast? with
    | none => true
    | some h =>
      match h.diffLines.reverse.find?
          (fun l => !(l.type == DiffChangeType.Delete)) with
      | some l => l.endwithLineBreak
      | none => true
  let tailPart : List (List Char) :=
    if lastDiffLineEndsWithNewline then
      match res.2 with
      | some lc =>
        if lc < (left.length : Int) then pushRange left (lc + 1) (left.length : Int)
        else [[]]
      | none => [[]]
    else []
  joinNL (res.1 ++ tailPart)

/-! ### parseDiff and the change classifier -/

/-- Modelled from the spec: the `GitChangeType` change-kind enum of
`common/file.ts` (not under `src/`); the five kinds reachable from
`getGitChangeType`. -/
inductive GitChangeType where
  | ADD
  | DELETE
  | RENAME
  | MODIFY
  | UNKNOWN
deriving DecidableEq, Repr

/-- `getGitChangeType`: the literal status-string table. -/
def getGitChangeType (status : List Char) : GitChangeType :=
  if status = "removed".toList then GitChangeType.DELETE
  else if status = "added".toList then GitChangeType.ADD
  else if status = "renamed".toList then GitChangeType.RENAME
  else if status = "modified".toList then GitChangeType.MODIFY
  else GitChangeType.UNKNOWN

/-- Modelled from the spec: the raw change record (`IRawFileChange` of
`github/interface.ts`, not under `src/`) restricted to the fields
`parseDiff` reads.  `patch` is `none` when the field is absent. -/
structure IRawFileChange where
  status : List Char
  patch : Option (List Char)
  additions : Nat
  blob_url : List Char
  filename : List Char
  previous_filename : Option (List Char)
deriving DecidableEq, Repr

/-- Modelled from the spec: the two file-change representations
(`SlimFileChange` / `InMemFileChange` of `common/file.ts`, not under
`src/`), as plain value carriers with the fields passed by `parseDiff`'s
constructor calls, in source order. -/
inductive FileChange where
  | slim (parentCommit blobUrl : List Char) (kind : GitChangeType)
      (fileName : List Char) (previousFileName : Option (List Char))
  | inMem (parentCommit : List Char) (kind : GitChangeType)
      (fileName : List Char) (previousFileName : Option (List Char))
      (patch : List Char) (diffHunks : Option (List DiffHunk))
      (blobUrl : List Char)
deriving DecidableEq, Repr

/-- JS truthiness of an optional string: absent and empty are both falsy. -/
def jsTruthyStr : Option (List Char) → Bool
  | none => false
  | some s => !s.isEmpty

/-- The body of `parseDiff`'s loop for a single raw record. -/
def parseDiffOne (parentCommit : List Char) (review : IRawFileChange) :
    FileChange :=
  let gitChangeType := getGitChangeType review.status
  if !jsTruthyStr review.patch
      && !(gitChangeType == GitChangeType.RENAME)
      && !(gitChangeType == GitChangeType.MODIFY)
      && !((gitChangeType == GitChangeType.ADD) && (review.additions == 0)) then
    FileChange.slim parentCommit review.blob_url gitChangeType
      review.filename review.previous_filename
  else
    FileChange.inMem parentCommit gitChangeType review.filename
      review.previous_filename (review.patch.getD [])
      (if jsTruthyStr review.patch then some (parsePatch (review.patch.getD []))
       else none)
      review.blob_url

/-- `parseDiff`: classify each record in order. -/
def parseDiff (reviews : List IRawFileChange) (parentCommit : List Char) :
    List FileChange :=
  reviews.map (parseDiffOne parentCommit)

/-- Is the produced change the metadata-only (`SlimFileChange`) variant? -/
def isSlim : FileChange → Bool
  | FileChange.slim _ _ _ _ _ => true
  | FileChange.inMem _ _ _ _ _ _ _ => false

/-- Does the produced change carry parsed hunks? -/
def hunksPresent : FileChange → Bool
  | FileChange.slim _ _ _ _ _ => false
  | FileChange.inMem _ _ _ _ _ none _ => false
  | FileChange.inMem _ _ _ _ _ (some _) _ => true

/-- Replace every CRLF pair by a bare LF, leaving all other characters
(including lone `\r`) untouched; the line-terminator normalization that
splitting on `\r?\n` and joining with `\n` performs. -/
def normalizeCRLF : List Char → List Char
  | [] => []
  | '\r' :: '\n' :: rest => '\n' :: normalizeCRLF rest
  | c :: rest => c :: normalizeCRLF rest

/-- Does the string contain a CRLF pair? -/
def hasCRLF : List Char → Bool
  | [] => false
  | '\r' :: '\n' :: _ => true
  | _ :: rest => hasCRLF rest

/-- Modelled from the spec: the header pattern exactly as the spec states it
for the recognition claim — `@@ -<oldStart>[,<oldCount>]?
+<newStart>[,<newCount>]? @@` with BOTH ranges present and each count, when
its comma is present, requiring at least one digit; trailing text after the
closing `@@` ignored. -/
def specHeaderClaimPattern (l : List Char) : Bool :=
  match expectChars ('@' :: '@' :: ' ' :: '-' :: []) l with
  | none => false
  | some r1 =>
    let s1 := spanDigits r1
    if s1.1.isEmpty then false
    else
      let r2 : Option (List Char) :=
        match s1.2 with
        | ',' :: rr =>
          let s2 := spanDigits rr
          if s2.1.isEmpty then none else some s2.2
        | _ => some s1.2
      match r2 with
      | none => false
      | some r2v =>
        match r2v with
        | ' ' :: '+' :: rr =>
          let s3 := spanDigits rr
          if s3.1.isEmpty then false
          else
            let r3 : Option (List Char) :=
              match s3.2 with
              | ',' :: rr3 =>
                let s4 := spanDigits rr3
                if s4.1.isEmpty then none else some s4.2
              | _ => some s3.2
            match r3 with
            | none => false
            | some r4 => (expectChars (' ' :: '@' :: '@' :: []) r4).isSome
        | _ => false

/-- The amended header pattern, stated as a plain decomposition of the
line: `@@ -o[,d] n? @@ rest` where `o` is a nonempty digit run, the old
count group is a comma followed by a nonempty digit run, the new-range
group `n?` — ` +n[,nc]` — may be absent entirely, and the digit run `nc`
after its comma may be empty; arbitrary text may follow the closing
`@@`. -/
def SpecHeaderShapeAmended (l : List Char) : Prop :=
  ∃ o ocp nwp rest : List Char,
    l = ('@' :: '@' :: ' ' :: '-' :: []) ++ o ++ ocp ++ nwp
        ++ (' ' :: '@' :: '@' :: []) ++ rest
    ∧ o ≠ [] ∧ (∀ ch ∈ o, ch.isDigit)
    ∧ (ocp = [] ∨ ∃ d, ocp = ',' :: d ∧ d ≠ [] ∧ (∀ ch ∈ d, ch.isDigit))
    ∧ (nwp = []
        ∨ ∃ n ncp, nwp = ' ' :: '+' :: (n ++ ncp) ∧ n ≠ []
            ∧ (∀ ch ∈ n, ch.isDigit)
            ∧ (ncp = [] ∨ ∃ nc, ncp = ',' :: nc ∧ (∀ ch ∈ nc, ch.isDigit)))

/-- A throwaway line used only as a `getD` default in concrete statements. -/
def dummyLine : DiffLine := ⟨DiffChangeType.Control, none, none, 0, [], true⟩

/-- A throwaway hunk used only as a `getD` default in concrete statements. -/
def dummyHunk : DiffHunk := ⟨none, 0, none, 0, 0, []⟩

/-- A throwaway change used only as a `getD` default in concrete statements. -/
def dummyChange : FileChange :=
  FileChange.slim [] [] GitChangeType.UNKNOWN [] none

/-- Concrete raw record: `status="added"`, `additions=0`, no patch. -/
def recAdd0 : IRawFileChange :=
  ⟨"added".toList, none, 0, "url".toList, "f".toList, none⟩

/-- Concrete raw record: `status="added"`, `additions=3`, no patch. -/
def recAdd3 : IRawFileChange :=
  ⟨"added".toList, none, 3, "url".toList, "f".toList, none⟩

end DiffHunkTs

namespace DiffHunkTs

/-! ## Helper lemmas about the parser state machine -/

/-- All hunks currently materialized: yielded ones plus the open one. -/
def allHunks (st : ParseState) : List DiffHunk := st.hunks ++ st.cur.toList

/-- All lines stored so far, in emission order. -/
def allLines (st : ParseState) : List DiffLine := linesOf (allHunks st)

/-- Positions of all lines stored so far, in emission order. -/
def allPos (st : ParseState) : List Int :=
  (allLines st).map (fun l => l.positionInHunk)

/-- The master invariant of the `parseDiffHunk` loop. -/
def ParseInv (st : ParseState) : Prop :=
  (st.pos = -1 → st.hunks = [] ∧ st.cur = none)
  ∧ (-1 : Int) ≤ st.pos
  ∧ (∀ p ∈ allPos st, p < st.pos)
  ∧ List.Pairwise (· < ·) (allPos st)
  ∧ (allPos st = [] ↔ st.pos = -1)
  ∧ (allPos st).head?.getD 0 = 0
  ∧ (∀ c, st.cur = some c →
      0 ≤ st.oldLine ∧ ∀ k, st.newLine = some k → 0 ≤ k)
  ∧ (∀ l ∈ allLines st, l.type ≠ DiffChangeType.Control →
      ((l.type = DiffChangeType.Add ↔ l.oldLineNumber = some (-1))
        ∧ (l.type = DiffChangeType.Delete ↔ l.newLineNumber = some (-1))))

lemma setLastNoBreak_map_pos (ls : List DiffLine) :
    (setLastNoBreak ls).map (fun l => l.positionInHunk)
      = ls.map (fun l => l.positionInHunk) := by
  induction ls with
  | nil => rfl
  | cons a t ih =>
    cases t with
    | nil => rfl
    | cons b r =>
      simp only [setLastNoBreak, List.map_cons] at ih ⊢
      rw [ih]

lemma mem_setLastNoBreak (ls : List DiffLine) (x : DiffLine)
    (h : x ∈ setLastNoBreak ls) :
    ∃ l ∈ ls, x.type = l.type ∧ x.oldLineNumber = l.oldLineNumber
      ∧ x.newLineNumber = l.newLineNumber := by
  induction ls with
  | nil => cases h
  | cons a t ih =>
    cases t with
    | nil =>
      simp only [setLastNoBreak, List.mem_singleton] at h
      subst h
      exact ⟨a, List.mem_singleton_self a, rfl, rfl, rfl⟩
    | cons b r =>
      simp only [setLastNoBreak, List.mem_cons] at h
      rcases h with h | h
      · exact ⟨a, List.mem_cons_self a _, by rw [h], by rw [h], by rw [h]⟩
      · obtain ⟨l, hl, he⟩ := ih h
        exact ⟨l, List.mem_cons_of_mem a hl, he⟩

lemma headD_append_of_ne_nil {xs ys : List Int} (h : xs ≠ []) :
    ((xs ++ ys).head?).getD 0 = (xs.head?).getD 0 := by
  cases xs with
  | nil => exact absurd rfl h
  | cons a t => rfl

lemma parseInit_inv : ParseInv parseInit := by
  refine ⟨fun _ => ⟨rfl, rfl⟩, by norm_num [parseInit], ?_, ?_, ?_, ?_, ?_, ?_⟩ <;>
    simp [parseInit, allPos, allLines, allHunks, linesOf]

lemma parseStep_inv (st : ParseState) (line : List Char) (H : ParseInv st) :
    ParseInv (parseStep st line) := by
  obtain ⟨hA, hB, hC, hD, hE, hF, hG, hH⟩ := H
  cases hh : parseHunkHeader line with
  | some q =>
    obtain ⟨o, oc, m5, m7⟩ := q
    by_cases hpos : st.pos = -1
    · -- first header of the patch: position counter starts at 0
      obtain ⟨hhk0, hcn0⟩ := hA hpos
      have hps : (parseStep st line).pos = 1 := by
        simp [parseStep, hh, hpos]
      have holdL : (parseStep st line).oldLine = (o : Int) := by
        simp [parseStep, hh, hpos]
      have hnewL : (parseStep st line).newLine
          = m5.map (fun n => (n : Int)) := by
        simp [parseStep, hh, hpos]
      have hal : allLines (parseStep st line)
          = [⟨DiffChangeType.Control, some (-1), some (-1), 0, line, true⟩] := by
        simp [allLines, allHunks, linesOf, parseStep, hh, hpos, hhk0, hcn0]
      have hap : allPos (parseStep st line) = [0] := by
        simp [allPos, hal]
      refine ⟨?_, ?_, ?_, ?_, ?_, ?_, ?_, ?_⟩
      · intro h0; rw [hps] at h0; exact absurd h0 (by norm_num)
      · rw [hps]; norm_num
      · intro p hp; rw [hap] at hp; rw [hps]
        simp only [List.mem_singleton] at hp; omega
      · rw [hap]; exact List.pairwise_singleton _ _
      · rw [hap, hps]
        constructor
        · intro h0; cases h0
        · intro h0; exact absurd h0 (by norm_num)
      · rw [hap]; rfl
      · intro c hc
        rw [holdL, hnewL]
        refine ⟨Int.natCast_nonneg o, ?_⟩
        intro k hk
        rcases m5 with _ | n
        · simp at hk
        · simp at hk; omega
      · intro l hl hctl
        rw [hal] at hl
        simp only [List.mem_singleton] at hl
        subst hl
        exact absurd rfl hctl
    · -- later header: pending hunk flushed, counter keeps running
      have hps : (parseStep st line).pos = st.pos + 1 := by
        simp [parseStep, hh, hpos]
      have holdL : (parseStep st line).oldLine = (o : Int) := by
        simp [parseStep, hh, hpos]
      have hnewL : (parseStep st line).newLine
          = m5.map (fun n => (n : Int)) := by
        simp [parseStep, hh, hpos]
      have hal : allLines (parseStep st line)
          = allLines st ++
            [⟨DiffChangeType.Control, some (-1), some (-1), st.pos, line,
              true⟩] := by
        simp [allLines, allHunks, linesOf, parseStep, hh, hpos]
      have hap : allPos (parseStep st line) = allPos st ++ [st.pos] := by
        simp [allPos, hal]
      have hne : allPos st ≠ [] := fun h0 => hpos (hE.mp h0)
      refine ⟨?_, ?_, ?_, ?_, ?_, ?_, ?_, ?_⟩
      · intro h0; rw [hps] at h0; omega
      · rw [hps]; omega
      · intro p hp; rw [hap] at hp; rw [hps]
        rcases List.mem_append.mp hp with hp | hp
        · have := hC p hp; omega
        · simp only [List.mem_singleton] at hp; omega
      · rw [hap]
        refine List.pairwise_append.mpr ⟨hD, List.pairwise_singleton _ _, ?_⟩
        intro a ha b hb
        simp only [List.mem_singleton] at hb
        subst hb
        exact hC a ha
      · rw [hap, hps]
        constructor
        · intro h0; exact absurd h0 (by simp)
        · intro h0; omega
      · rw [hap, headD_append_of_ne_nil hne]; exact hF
      · intro c hc
        rw [holdL, hnewL]
        refine ⟨Int.natCast_nonneg o, ?_⟩
        intro k hk
        rcases m5 with _ | n
        · simp at hk
        · simp at hk; omega
      · intro l hl hctl
        rw [hal] at hl
        rcases List.mem_append.mp hl with hl | hl
        · exact hH l hl hctl
        · simp only [List.mem_singleton] at hl
          subst hl
          exact absurd rfl hctl
  | none =>
    cases hcu : st.cur with
    | none =>
      by_cases hpos : st.pos = -1
      · have hps : (parseStep st line).pos = -1 := by
          simp [parseStep, hh, hcu, hpos]
        have hhk : (parseStep st line).hunks = st.hunks := by
          simp [parseStep, hh, hcu, hpos]
        have hcr : (parseStep st line).cur = none := by
          simp [parseStep, hh, hcu, hpos]
        have hal : allLines (parseStep st line) = allLines st := by
          simp [allLines, allHunks, linesOf, parseStep, hh, hcu, hpos]
        have hap : allPos (parseStep st line) = allPos st := by
          simp [allPos, hal]
        refine ⟨?_, ?_, ?_, ?_, ?_, ?_, ?_, ?_⟩
        · intro h0
          exact ⟨by rw [hhk]; exact (hA hpos).1, hcr⟩
        · rw [hps]
        · intro p hp
          rw [hap, hE.mpr hpos] at hp
          cases hp
        · rw [hap]; exact hD
        · rw [hap, hps]
          simp [hE.mpr hpos]
        · rw [hap]; exact hF
        · intro c hc; rw [hcr] at hc; cases hc
        · intro l hl hctl; rw [hal] at hl; exact hH l hl hctl
      · have hps : (parseStep st line).pos = st.pos + 1 := by
          simp [parseStep, hh, hcu, hpos]
        have hhk : (parseStep st line).hunks = st.hunks := by
          simp [parseStep, hh, hcu, hpos]
        have hcr : (parseStep st line).cur = none := by
          simp [parseStep, hh, hcu, hpos]
        have hal : allLines (parseStep st line) = allLines st := by
          simp [allLines, allHunks, linesOf, parseStep, hh, hcu, hpos]
        have hap : allPos (parseStep st line) = allPos st := by
          simp [allPos, hal]
        refine ⟨?_, ?_, ?_, ?_, ?_, ?_, ?_, ?_⟩
        · intro h0; rw [hps] at h0; omega
        · rw [hps]; omega
        · intro p hp
          rw [hap] at hp; rw [hps]
          have := hC p hp; omega
        · rw [hap]; exact hD
        · rw [hap, hps]
          constructor
          · intro h0; exact absurd (hE.mp h0) hpos
          · intro h0; omega
        · rw [hap]; exact hF
        · intro c hc; rw [hcr] at hc; cases hc
        · intro l hl hctl; rw [hal] at hl; exact hH l hl hctl
    | some c =>
      have hpos : st.pos ≠ -1 := fun h0 => by
        rw [(hA h0).2] at hcu; cases hcu
      have hge : (0 : Int) ≤ st.pos := by omega
      obtain ⟨hGo, hGn⟩ := hG c hcu
      have halst : allLines st = linesOf st.hunks ++ c.diffLines := by
        simp [allLines, allHunks, linesOf, hcu]
      have hne : allPos st ≠ [] := fun h0 => hpos (hE.mp h0)
      cases hgt : getDiffChangeType line with
      | Control =>
        have hps : (parseStep st line).pos = st.pos + 1 := by
          simp [parseStep, hh, hcu, hgt, hpos]
        have holdL : (parseStep st line).oldLine = st.oldLine := by
          simp [parseStep, hh, hcu, hgt, hpos]
        have hnewL : (parseStep st line).newLine = st.newLine := by
          simp [parseStep, hh, hcu, hgt, hpos]
        have hal : allLines (parseStep st line)
            = linesOf st.hunks ++ setLastNoBreak c.diffLines := by
          simp [allLines, allHunks, linesOf, parseStep, hh, hcu, hgt, hpos]
        have hap : allPos (parseStep st line) = allPos st := by
          simp only [allPos, hal, halst, List.map_append,
            setLastNoBreak_map_pos]
        refine ⟨?_, ?_, ?_, ?_, ?_, ?_, ?_, ?_⟩
        · intro h0; rw [hps] at h0; omega
        · rw [hps]; omega
        · intro p hp
          rw [hap] at hp; rw [hps]
          have := hC p hp; omega
        · rw [hap]; exact hD
        · rw [hap, hps]
          constructor
          · intro h0; exact absurd (hE.mp h0) hpos
          · intro h0; omega
        · rw [hap]; exact hF
        · intro c' hc'
          rw [holdL, hnewL]
          exact ⟨hGo, hGn⟩
        · intro l hl hctl
          rw [hal] at hl
          rcases List.mem_append.mp hl with hl | hl
          · exact hH l (by rw [halst]; exact List.mem_append.mpr (Or.inl hl))
              hctl
          · obtain ⟨l0, hl0, het, heo, hen⟩ := mem_setLastNoBreak _ _ hl
            have hl0m : l0 ∈ allLines st := by
              rw [halst]; exact List.mem_append.mpr (Or.inr hl0)
            have hiff := hH l0 hl0m (by rw [← het]; exact hctl)
            rw [het, heo, hen]
            exact hiff
      | Context =>
        have hps : (parseStep st line).pos = st.pos + 1 := by
          simp [parseStep, hh, hcu, hgt, hpos]
        have holdL : (parseStep st line).oldLine
            = st.oldLine + (1 + (countCarriageReturns line : Int)) := by
          simp [parseStep, hh, hcu, hgt, hpos]
        have hnewL : (parseStep st line).newLine
            = st.newLine.map (· + (1 + (countCarriageReturns line : Int))) := by
          simp [parseStep, hh, hcu, hgt, hpos]
        have hal : allLines (parseStep st line)
            = allLines st ++
              [⟨DiffChangeType.Context, some st.oldLine, st.newLine, st.pos,
                line, true⟩] := by
          simp [allLines, allHunks, linesOf, parseStep, hh, hcu, hgt, hpos]
        have hap : allPos (parseStep st line) = allPos st ++ [st.pos] := by
          simp [allPos, hal]
        refine ⟨?_, ?_, ?_, ?_, ?_, ?_, ?_, ?_⟩
        · intro h0; rw [hps] at h0; omega
        · rw [hps]; omega
        · intro p hp; rw [hap] at hp; rw [hps]
          rcases List.mem_append.mp hp with hp | hp
          · have := hC p hp; omega
          · simp only [List.mem_singleton] at hp; omega
        · rw [hap]
          refine List.pairwise_append.mpr ⟨hD, List.pairwise_singleton _ _, ?_⟩
          intro a ha b hb
          simp only [List.mem_singleton] at hb
          subst hb
          exact hC a ha
        · rw [hap, hps]
          constructor
          · intro h0; exact absurd h0 (by simp)
          · intro h0; omega
        · rw [hap, headD_append_of_ne_nil hne]; exact hF
        · intro c' hc'
          rw [holdL, hnewL]
          constructor
          · omega
          · intro k hk
            cases hnl : st.newLine with
            | none => rw [hnl] at hk; simp at hk
            | some n =>
              rw [hnl] at hk
              simp only [Option.map_some'] at hk
              have h1 : 0 ≤ n := hGn n hnl
              have h2 : n + (1 + (countCarriageReturns line : Int)) = k := by
                exact Option.some.inj hk
              omega
        · intro l hl hctl
          rw [hal] at hl
          rcases List.mem_append.mp hl with hl | hl
          · exact hH l hl hctl
          · simp only [List.mem_singleton] at hl
            subst hl
            refine ⟨⟨?_, ?_⟩, ⟨?_, ?_⟩⟩
            · intro h0; cases h0
            · intro h0
              exfalso
              have : st.oldLine = -1 := Option.some.inj h0
              omega
            · intro h0; cases h0
            · intro h0
              exfalso
              have := hGn (-1) h0
              omega
      | Add =>
        have hps : (parseStep st line).pos = st.pos + 1 := by
          simp [parseStep, hh, hcu, hgt, hpos]
        have holdL : (parseStep st line).oldLine = st.oldLine := by
          simp [parseStep, hh, hcu, hgt, hpos]
        have hnewL : (parseStep st line).newLine
            = st.newLine.map (· + (1 + (countCarriageReturns line : Int))) := by
          simp [parseStep, hh, hcu, hgt, hpos]
        have hal : allLines (parseStep st line)
            = allLines st ++
              [⟨DiffChangeType.Add, some (-1), st.newLine, st.pos, line,
                true⟩] := by
          simp [allLines, allHunks, linesOf, parseStep, hh, hcu, hgt, hpos]
        have hap : allPos (parseStep st line) = allPos st ++ [st.pos] := by
          simp [allPos, hal]
        refine ⟨?_, ?_, ?_, ?_, ?_, ?_, ?_, ?_⟩
        · intro h0; rw [hps] at h0; omega
        · rw [hps]; omega
        · intro p hp; rw [hap] at hp; rw [hps]
          rcases List.mem_append.mp hp with hp | hp
          · have := hC p hp; omega
          · simp only [List.mem_singleton] at hp; omega
        · rw [hap]
          refine List.pairwise_append.mpr ⟨hD, List.pairwise_singleton _ _, ?_⟩
          intro a ha b hb
          simp only [List.mem_singleton] at hb
          subst hb
          exact hC a ha
        · rw [hap, hps]
          constructor
          · intro h0; exact absurd h0 (by simp)
          · intro h0; omega
        · rw [hap, headD_append_of_ne_nil hne]; exact hF
        · intro c' hc'
          rw [holdL, hnewL]
          constructor
          · exact hGo
          · intro k hk
            cases hnl : st.newLine with
            | none => rw [hnl] at hk; simp at hk
            | some n =>
              rw [hnl] at hk
              simp only [Option.map_some'] at hk
              have h1 : 0 ≤ n := hGn n hnl
              have h2 : n + (1 + (countCarriageReturns line : Int)) = k := by
                exact Option.some.inj hk
              omega
        · intro l hl hctl
          rw [hal] at hl
          rcases List.mem_append.mp hl with hl | hl
          · exact hH l hl hctl
          · simp only [List.mem_singleton] at hl
            subst hl
            refine ⟨⟨?_, ?_⟩, ⟨?_, ?_⟩⟩
            · intro h0; rfl
            · intro h0; rfl
            · intro h0; cases h0
            · intro h0
              exfalso
              have := hGn (-1) h0
              omega
      | Delete =>
        have hps : (parseStep st line).pos = st.pos + 1 := by
          simp [parseStep, hh, hcu, hgt, hpos]
        have holdL : (parseStep st line).oldLine
            = st.oldLine + (1 + (countCarriageReturns line : Int)) := by
          simp [parseStep, hh, hcu, hgt, hpos]
        have hnewL : (parseStep st line).newLine = st.newLine := by
          simp [parseStep, hh, hcu, hgt, hpos]
        have hal : allLines (parseStep st line)
            = allLines st ++
              [⟨DiffChangeType.Delete, some st.oldLine, some (-1), st.pos,
                line, true⟩] := by
          simp [allLines, allHunks, linesOf, parseStep, hh, hcu, hgt, hpos]
        have hap : allPos (parseStep st line) = allPos st ++ [st.pos] := by
          simp [allPos, hal]
        refine ⟨?_, ?_, ?_, ?_, ?_, ?_, ?_, ?_⟩
        · intro h0; rw [hps] at h0; omega
        · rw [hps]; omega
        · intro p hp; rw [hap] at hp; rw [hps]
          rcases List.mem_append.mp hp with hp | hp
          · have := hC p hp; omega
          · simp only [List.mem_singleton] at hp; omega
        · rw [hap]
          refine List.pairwise_append.mpr ⟨hD, List.pairwise_singleton _ _, ?_⟩
          intro a ha b hb
          simp only [List.mem_singleton] at hb
          subst hb
          exact hC a ha
        · rw [hap, hps]
          constructor
          · intro h0; exact absurd h0 (by simp)
          · intro h0; omega
        · rw [hap, headD_append_of_ne_nil hne]; exact hF
        · intro c' hc'
          rw [holdL, hnewL]
          constructor
          · omega
          · exact hGn
        · intro l hl hctl
          rw [hal] at hl
          rcases List.mem_append.mp hl with hl | hl
          · exact hH l hl hctl
          · simp only [List.mem_singleton] at hl
            subst hl
            refine ⟨⟨?_, ?_⟩, ⟨?_, ?_⟩⟩
            · intro h0; cases h0
            · intro h0
              exfalso
              have : st.oldLine = -1 := Option.some.inj h0
              omega
            · intro h0; rfl
            · intro h0; rfl

lemma parse_fold_inv (ls : List (List Char)) (st : ParseState)
    (h : ParseInv st) : ParseInv (ls.foldl parseStep st) := by
  induction ls generalizing st with
  | nil => exact h
  | cons a t ih => exact ih _ (parseStep_inv st a h)

lemma parsePatch_inv (p : List Char) :
    ParseInv ((lineReader p).foldl parseStep parseInit)
      ∧ parsePatch p
        = allHunks ((lineReader p).foldl parseStep parseInit) := by
  exact ⟨parse_fold_inv _ _ parseInit_inv, rfl⟩

lemma mem_linesOf {hs : List DiffHunk} {h : DiffHunk} {l : DiffLine}
    (hm : h ∈ hs) (hl : l ∈ h.diffLines) : l ∈ linesOf hs :=
  List.mem_flatMap.mpr ⟨h, hm, hl⟩

/-! ## Helper lemmas for the graceful-degradation and reconstruction claims -/

lemma parseStep_no_header (line : List Char)
    (h : parseHunkHeader line = none) :
    parseStep parseInit line = parseInit := by
  simp [parseStep, h, parseInit]

lemma no_header_fold (ls : List (List Char))
    (h : ∀ l ∈ ls, parseHunkHeader l = none) :
    ls.foldl parseStep parseInit = parseInit := by
  induction ls with
  | nil => rfl
  | cons a t ih =>
    rw [List.foldl_cons, parseStep_no_header a (h a (List.mem_cons_self a t))]
    exact ih (fun l hl => h l (List.mem_cons_of_mem a hl))

lemma splitRN_ne_nil (l : List Char) : splitRN l ≠ [] := by
  induction l using splitRN.induct with
  | case1 => simp [splitRN]
  | case2 rest ih => simp [splitRN]
  | case3 rest ih => simp [splitRN]
  | case4 c rest h1 h2 hsp ih => simp [splitRN, h1, h2, hsp]
  | case5 c rest h1 h2 x xs hsp ih => simp [splitRN, h1, h2, hsp]

lemma joinNL_cons_cons (c : Char) (l : List Char) (ls : List (List Char)) :
    joinNL ((c :: l) :: ls) = c :: joinNL (l :: ls) := by
  cases ls with
  | nil => rfl
  | cons y ys => rfl

lemma joinNL_splitRN (l : List Char) : joinNL (splitRN l) = normalizeCRLF l := by
  induction l using splitRN.induct with
  | case1 => rfl
  | case2 rest ih =>
    obtain ⟨x, xs, hx⟩ := List.exists_cons_of_ne_nil (splitRN_ne_nil rest)
    rw [show splitRN ('\r' :: '\n' :: rest) = [] :: splitRN rest from by
      simp [splitRN]]
    rw [hx, show joinNL ([] :: x :: xs) = '\n' :: joinNL (x :: xs) from rfl,
      ← hx, ih]
    rfl
  | case3 rest ih =>
    obtain ⟨x, xs, hx⟩ := List.exists_cons_of_ne_nil (splitRN_ne_nil rest)
    rw [show splitRN ('\n' :: rest) = [] :: splitRN rest from by simp [splitRN]]
    rw [hx, show joinNL ([] :: x :: xs) = '\n' :: joinNL (x :: xs) from rfl,
      ← hx, ih]
    rfl
  | case4 c rest h1 h2 hsp ih => exact absurd hsp (splitRN_ne_nil rest)
  | case5 c rest h1 h2 x xs hsp ih =>
    rw [show splitRN (c :: rest) = (c :: x) :: xs from by
      simp [splitRN, h1, h2, hsp]]
    rw [joinNL_cons_cons, ← hsp, ih]
    rw [show normalizeCRLF (c :: rest) = c :: normalizeCRLF rest from by
      simp [normalizeCRLF, h1]]

lemma normalizeCRLF_id (l : List Char) (h : hasCRLF l = false) :
    normalizeCRLF l = l := by
  induction l using normalizeCRLF.induct with
  | case1 => rfl
  | case2 rest ih => simp [hasCRLF] at h
  | case3 c rest h1 ih =>
    have hrec : hasCRLF rest = false := by
      rw [show hasCRLF (c :: rest) = hasCRLF rest from by simp [hasCRLF, h1]]
        at h
      exact h
    rw [show normalizeCRLF (c :: rest) = c :: normalizeCRLF rest from by
      simp [normalizeCRLF, h1]]
    rw [ih hrec]

lemma map_getD_range (L : List (List Char)) :
    (List.range L.length).map (fun k => L.getD k []) = L := by
  induction L with
  | nil => rfl
  | cons a t ih =>
    rw [List.length_cons, List.range_succ_eq_map, List.map_cons, List.map_map]
    have h1 : ((fun k => (a :: t).getD k []) ∘ Nat.succ)
        = (fun k => t.getD k []) := by
      funext k; rfl
    rw [h1, ih]
    rfl

lemma pushRange_full (L : List (List Char)) :
    pushRange L 1 (L.length : Int) = L := by
  unfold pushRange
  have h1 : ((L.length : Int) - 1 + 1).toNat = L.length := by omega
  have h2 : (((1 : Int) - 1)).toNat = 0 := by norm_num
  rw [h1, h2]
  have h3 : (fun k => L.getD (0 + k) []) = (fun k => L.getD k []) := by
    funext k; rw [Nat.zero_add]
  rw [h3, map_getD_range]

lemma getModified_zero_hunks (orig patch : List Char)
    (h : parsePatch patch = []) :
    getModifiedContentFromDiffHunk orig patch = joinNL (splitRN orig) := by
  have hne := splitRN_ne_nil orig
  have hlen : (0 : Int) < ((splitRN orig).length : Int) := by
    have := List.length_pos.mpr hne
    omega
  unfold getModifiedContentFromDiffHunk
  rw [h]
  simp only [applyHunks, List.getLast?_nil, if_pos rfl]
  rw [if_pos hlen]
  have h01 : (0 : Int) + 1 = 1 := by norm_num
  rw [h01, pushRange_full, List.nil_append]
  simp

/-! ## Helper lemmas for the header-recognition claim -/

lemma expectChars_eq_some {p l r : List Char} :
    expectChars p l = some r ↔ l = p ++ r := by
  induction p generalizing l with
  | nil => simp [expectChars, eq_comm]
  | cons a p ih =>
    cases l with
    | nil => simp [expectChars]
    | cons b l' =>
      by_cases hab : a = b
      · subst hab
        rw [show expectChars (a :: p) (a :: l') = expectChars p l' from by
          simp [expectChars]]
        rw [ih]
        simp
      · constructor
        · intro h
          rw [show expectChars (a :: p) (b :: l') = none from by
            simp [expectChars, hab]] at h
          exact Option.noConfusion h
        · intro h
          injection h with h1 h2
          exact absurd h1.symm hab

lemma expectChars_append (p r : List Char) : expectChars p (p ++ r) = some r :=
  expectChars_eq_some.mpr rfl

lemma mem_takeWhile_of_mem {p : Char → Bool} :
    ∀ {l : List Char} {c : Char}, c ∈ l.takeWhile p → p c = true := by
  intro l
  induction l with
  | nil => intro c h; cases h
  | cons a t ih =>
    intro c h
    by_cases pa : p a = true
    · rw [List.takeWhile_cons, if_pos pa] at h
      rcases List.mem_cons.mp h with h | h
      · rw [h]; exact pa
      · exact ih h
    · rw [List.takeWhile_cons, if_neg pa] at h
      cases h

lemma takeWhile_all_append {d r : List Char}
    (hd : ∀ c ∈ d, Char.isDigit c)
    (hr : ∀ c cs, r = c :: cs → Char.isDigit c = false) :
    (d ++ r).takeWhile Char.isDigit = d
      ∧ (d ++ r).dropWhile Char.isDigit = r := by
  induction d with
  | nil =>
    simp only [List.nil_append]
    cases r with
    | nil => simp
    | cons c cs =>
      rw [List.takeWhile_cons, List.dropWhile_cons, hr c cs rfl]
      simp
  | cons a d ih =>
    have ha : Char.isDigit a = true := hd a (List.mem_cons_self a d)
    have ih' := ih (fun c hc => hd c (List.mem_cons_of_mem a hc))
    rw [List.cons_append, List.takeWhile_cons, List.dropWhile_cons, ha]
    simp only [if_true]
    exact ⟨by rw [ih'.1], by rw [ih'.2]⟩

lemma spanDigits_exact {d r : List Char}
    (hd : ∀ c ∈ d, Char.isDigit c)
    (hr : ∀ c cs, r = c :: cs → Char.isDigit c = false) :
    spanDigits (d ++ r) = (d, r) := by
  unfold spanDigits
  rw [(takeWhile_all_append hd hr).1, (takeWhile_all_append hd hr).2]

lemma spanDigits_decomp (l : List Char) :
    l = (spanDigits l).1 ++ (spanDigits l).2
      ∧ ∀ c ∈ (spanDigits l).1, Char.isDigit c := by
  constructor
  · exact (List.takeWhile_append_dropWhile (p := Char.isDigit) (l := l)).symm
  · intro c hc
    exact mem_takeWhile_of_mem hc

lemma optCommaCount_spec (s : List Char) :
    optCommaCount s = (none, s)
      ∨ ∃ d r, s = ',' :: (d ++ r) ∧ d ≠ [] ∧ (∀ c ∈ d, Char.isDigit c)
          ∧ optCommaCount s = (some (natOfDigits d), r) := by
  cases s with
  | nil => exact Or.inl rfl
  | cons c rr =>
    by_cases hc : c = ','
    · subst hc
      by_cases hd : (spanDigits rr).1.isEmpty
      · left
        simp [optCommaCount, hd]
      · right
        refine ⟨(spanDigits rr).1, (spanDigits rr).2, ?_, ?_, ?_, ?_⟩
        · rw [← (spanDigits_decomp rr).1]
        · intro h0; rw [h0] at hd; exact hd rfl
        · exact (spanDigits_decomp rr).2
        · simp [optCommaCount, hd]
    · left
      have hcase : ∀ rr', (c :: rr) = ',' :: rr' → False := by
        intro rr' he
        injection he with h1 _
        exact hc h1
      simp [optCommaCount, hcase]

lemma optNewRange_spec (s : List Char) :
    optNewRange s = (none, none, s)
      ∨ (∃ n r, s = ' ' :: '+' :: (n ++ r) ∧ n ≠ []
          ∧ (∀ c ∈ n, Char.isDigit c)
          ∧ optNewRange s = (some (natOfDigits n), none, r))
      ∨ (∃ n d r, s = ' ' :: '+' :: (n ++ (',' :: (d ++ r))) ∧ n ≠ []
          ∧ (∀ c ∈ n, Char.isDigit c) ∧ (∀ c ∈ d, Char.isDigit c)
          ∧ optNewRange s = (some (natOfDigits n),
              if d.isEmpty then none else some (natOfDigits d), r)) := by
  cases s with
  | nil => exact Or.inl rfl
  | cons c rr =>
    cases rr with
    | nil =>
      left
      have hcase : ∀ rr', (c :: ([] : List Char)) = ' ' :: '+' :: rr' → False := by
        intro rr' he
        injection he with _ h2
        exact List.noConfusion h2
      simp [optNewRange, hcase]
    | cons c2 rr2 =>
      by_cases hsp : c = ' ' ∧ c2 = '+'
      · obtain ⟨hc1, hc2⟩ := hsp
        subst hc1; subst hc2
        by_cases hd3 : (spanDigits rr2).1.isEmpty
        · left
          simp [optNewRange, hd3]
        · have hnne : (spanDigits rr2).1 ≠ [] := by
            intro h0; rw [h0] at hd3; exact hd3 rfl
          rcases hsd : (spanDigits rr2).2 with _ | ⟨c3, rr3⟩
          · right; left
            refine ⟨(spanDigits rr2).1, [], ?_, hnne, (spanDigits_decomp rr2).2,
              ?_⟩
            · rw [List.append_nil]
              have h1 := (spanDigits_decomp rr2).1
              rw [hsd, List.append_nil] at h1
              rw [← h1]
            · simp [optNewRange, hd3, hsd]
          · by_cases hc3 : c3 = ','
            · subst hc3
              right; right
              refine ⟨(spanDigits rr2).1, (spanDigits rr3).1, (spanDigits rr3).2,
                ?_, hnne, (spanDigits_decomp rr2).2, (spanDigits_decomp rr3).2,
                ?_⟩
              · have h2 := (spanDigits_decomp rr3).1
                rw [← h2, ← hsd, ← (spanDigits_decomp rr2).1]
              · simp [optNewRange, hd3, hsd]
            · right; left
              refine ⟨(spanDigits rr2).1, c3 :: rr3, ?_, hnne,
                (spanDigits_decomp rr2).2, ?_⟩
              · rw [← hsd, ← (spanDigits_decomp rr2).1]
              · have hcase : ∀ rr', (c3 :: rr3) = ',' :: rr' → False := by
                  intro rr' he
                  injection he with h1 _
                  exact hc3 h1
                simp [optNewRange, hd3, hsd, hcase]
      · left
        have hcase : ∀ rr', (c :: c2 :: rr2) = ' ' :: '+' :: rr' → False := by
          intro rr' he
          injection he with h1 h2
          injection h2 with h2 _
          exact hsp ⟨h1, h2⟩
        simp [optNewRange, hcase]

lemma header_isSome_imp_shape (l : List Char)
    (h : (parseHunkHeader l).isSome = true) : SpecHeaderShapeAmended l := by
  cases h1 : expectChars ('@' :: '@' :: ' ' :: '-' :: []) l with
  | none =>
    simp only [parseHunkHeader, h1, Option.isSome_none] at h
    exact Bool.noConfusion h
  | some r1 =>
    simp only [parseHunkHeader, h1] at h
    obtain ⟨o, r2, ho⟩ : ∃ a b, spanDigits r1 = (a, b) := ⟨_, _, rfl⟩
    rw [ho] at h
    dsimp only at h
    have hr1 : r1 = o ++ r2 := by
      have hd := (spanDigits_decomp r1).1
      rw [ho] at hd
      exact hd
    have hodig : ∀ c ∈ o, Char.isDigit c := by
      have hd := (spanDigits_decomp r1).2
      rw [ho] at hd
      exact hd
    by_cases hoe : o.isEmpty
    · rw [if_pos hoe] at h
      simp at h
    · rw [if_neg hoe] at h
      have hone : o ≠ [] := by
        intro h0; rw [h0] at hoe; exact hoe rfl
      have hl2 : l = ('@' :: '@' :: ' ' :: '-' :: []) ++ (o ++ r2) := by
        rw [← hr1]
        exact expectChars_eq_some.mp h1
      rcases optCommaCount_spec r2 with hoc | ⟨d, r3, hocs, hdne, hddig, hoceq⟩
      · rw [hoc] at h
        dsimp only at h
        rcases optNewRange_spec r2 with hnw
          | ⟨n, r4, hnws, hnne, hndig, hnweq⟩
          | ⟨n, d4, r4, hnws, hnne, hndig, hd4dig, hnweq⟩
        · rw [hnw] at h
          dsimp only at h
          cases h2 : expectChars (' ' :: '@' :: '@' :: []) r2 with
          | none => rw [h2] at h; simp at h
          | some rest =>
            have hr2 : r2 = (' ' :: '@' :: '@' :: []) ++ rest :=
              expectChars_eq_some.mp h2
            refine ⟨o, [], [], rest, ?_, hone, hodig, Or.inl rfl, Or.inl rfl⟩
            rw [hl2, hr2]
            simp [List.append_assoc]
        · rw [hnweq] at h
          dsimp only at h
          cases h2 : expectChars (' ' :: '@' :: '@' :: []) r4 with
          | none => rw [h2] at h; simp at h
          | some rest =>
            have hr4 : r4 = (' ' :: '@' :: '@' :: []) ++ rest :=
              expectChars_eq_some.mp h2
            refine ⟨o, [], ' ' :: '+' :: (n ++ []), rest, ?_, hone, hodig,
              Or.inl rfl, Or.inr ⟨n, [], rfl, hnne, hndig, Or.inl rfl⟩⟩
            rw [hl2, hnws, hr4]
            simp [List.append_assoc]
        · rw [hnweq] at h
          dsimp only at h
          cases h2 : expectChars (' ' :: '@' :: '@' :: []) r4 with
          | none => rw [h2] at h; simp at h
          | some rest =>
            have hr4 : r4 = (' ' :: '@' :: '@' :: []) ++ rest :=
              expectChars_eq_some.mp h2
            refine ⟨o, [], ' ' :: '+' :: (n ++ (',' :: d4)), rest, ?_, hone,
              hodig, Or.inl rfl,
              Or.inr ⟨n, ',' :: d4, rfl, hnne, hndig,
                Or.inr ⟨d4, rfl, hd4dig⟩⟩⟩
            rw [hl2, hnws, hr4]
            simp [List.append_assoc]
      · rw [hoceq] at h
        dsimp only at h
        rcases optNewRange_spec r3 with hnw
          | ⟨n, r4, hnws, hnne, hndig, hnweq⟩
          | ⟨n, d4, r4, hnws, hnne, hndig, hd4dig, hnweq⟩
        · rw [hnw] at h
          dsimp only at h
          cases h2 : expectChars (' ' :: '@' :: '@' :: []) r3 with
          | none => rw [h2] at h; simp at h
          | some rest =>
            have hr3 : r3 = (' ' :: '@' :: '@' :: []) ++ rest :=
              expectChars_eq_some.mp h2
            refine ⟨o, ',' :: d, [], rest, ?_, hone, hodig,
              Or.inr ⟨d, rfl, hdne, hddig⟩, Or.inl rfl⟩
            rw [hl2, hocs, hr3]
            simp [List.append_assoc]
        · rw [hnweq] at h
          dsimp only at h
          cases h2 : expectChars (' ' :: '@' :: '@' :: []) r4 with
          | none => rw [h2] at h; simp at h
          | some rest =>
            have hr4 : r4 = (' ' :: '@' :: '@' :: []) ++ rest :=
              expectChars_eq_some.mp h2
            refine ⟨o, ',' :: d, ' ' :: '+' :: (n ++ []), rest, ?_, hone,
              hodig, Or.inr ⟨d, rfl, hdne, hddig⟩,
              Or.inr ⟨n, [], rfl, hnne, hndig, Or.inl rfl⟩⟩
            rw [hl2, hocs, hnws, hr4]
            simp [List.append_assoc]
        · rw [hnweq] at h
          dsimp only at h
          cases h2 : expectChars (' ' :: '@' :: '@' :: []) r4 with
          | none => rw [h2] at h; simp at h
          | some rest =>
            have hr4 : r4 = (' ' :: '@' :: '@' :: []) ++ rest :=
              expectChars_eq_some.mp h2
            refine ⟨o, ',' :: d, ' ' :: '+' :: (n ++ (',' :: d4)), rest, ?_,
              hone, hodig, Or.inr ⟨d, rfl, hdne, hddig⟩,
              Or.inr ⟨n, ',' :: d4, rfl, hnne, hndig,
                Or.inr ⟨d4, rfl, hd4dig⟩⟩⟩
            rw [hl2, hocs, hnws, hr4]
            simp [List.append_assoc]

lemma isEmpty_false_of_ne_nil {l : List Char} (h : l ≠ []) :
    l.isEmpty = false := by
  cases l with
  | nil => exact absurd rfl h
  | cons a t => rfl

lemma headDigit_false_space (rest : List Char) :
    ∀ c cs, (' ' :: '@' :: '@' :: rest) = c :: cs →
      Char.isDigit c = false := by
  intro c cs he
  injection he with h1 _
  rw [← h1]
  decide

lemma shape_imp_header_isSome (l : List Char) (hS : SpecHeaderShapeAmended l) :
    (parseHunkHeader l).isSome = true := by
  obtain ⟨o, ocp, nwp, rest, hl, hone, hodig, hoc, hnw⟩ := hS
  subst hl
  have hoef : o.isEmpty = false := isEmpty_false_of_ne_nil hone
  have hccASpace : ∀ rr', (' ' :: '@' :: '@' :: rest) = ',' :: rr' → False := by
    intro rr' he
    injection he with h1 _
    exact absurd h1 (by decide)
  have hnrASpace : ∀ rr', (' ' :: '@' :: '@' :: rest) = ' ' :: '+' :: rr' →
      False := by
    intro rr' he
    injection he with _ h2
    injection h2 with h2 _
    exact absurd h2 (by decide)
  rcases hoc with hoce | ⟨d, hocd, hdne, hddig⟩
  · subst hoce
    rcases hnw with hnwe | ⟨n, ncp, hnwd, hnne, hndig, hncp⟩
    · subst hnwe
      have hsp1 : spanDigits (o ++ (' ' :: '@' :: '@' :: rest))
          = (o, ' ' :: '@' :: '@' :: rest) :=
        spanDigits_exact hodig (headDigit_false_space rest)
      simp [parseHunkHeader, expectChars, optCommaCount, optNewRange, hsp1,
        hoef, hccASpace, hnrASpace, List.append_assoc]
    · subst hnwd
      have hnef : n.isEmpty = false := isEmpty_false_of_ne_nil hnne
      rcases hncp with hncpe | ⟨nc, hncpd, hncdig⟩
      · subst hncpe
        have hsp1 : spanDigits
            (o ++ (' ' :: '+' :: (n ++ (' ' :: '@' :: '@' :: rest))))
            = (o, ' ' :: '+' :: (n ++ (' ' :: '@' :: '@' :: rest))) :=
          spanDigits_exact hodig (by
            intro c cs he
            injection he with h1 _
            rw [← h1]
            decide)
        have hsp3 : spanDigits (n ++ (' ' :: '@' :: '@' :: rest))
            = (n, ' ' :: '@' :: '@' :: rest) :=
          spanDigits_exact hndig (headDigit_false_space rest)
        have hinner : ∀ rr', (' ' :: '@' :: '@' :: rest) = ',' :: rr' →
            False := hccASpace
        simp [parseHunkHeader, expectChars, optCommaCount, optNewRange,
          hsp1, hsp3, hoef, hnef, hccASpace, hinner, List.append_assoc]
      · subst hncpd
        have hsp1 : spanDigits
            (o ++ (' ' :: '+' ::
              (n ++ (',' :: (nc ++ (' ' :: '@' :: '@' :: rest))))))
            = (o, ' ' :: '+' ::
              (n ++ (',' :: (nc ++ (' ' :: '@' :: '@' :: rest))))) :=
          spanDigits_exact hodig (by
            intro c cs he
            injection he with h1 _
            rw [← h1]
            decide)
        have hsp3 : spanDigits
            (n ++ (',' :: (nc ++ (' ' :: '@' :: '@' :: rest))))
            = (n, ',' :: (nc ++ (' ' :: '@' :: '@' :: rest))) :=
          spanDigits_exact hndig (by
            intro c cs he
            injection he with h1 _
            rw [← h1]
            decide)
        have hsp4 : spanDigits (nc ++ (' ' :: '@' :: '@' :: rest))
            = (nc, ' ' :: '@' :: '@' :: rest) :=
          spanDigits_exact hncdig (headDigit_false_space rest)
        simp [parseHunkHeader, expectChars, optCommaCount, optNewRange,
          hsp1, hsp3, hsp4, hoef, hnef, hccASpace, List.append_assoc]
  · subst hocd
    have hdef : d.isEmpty = false := isEmpty_false_of_ne_nil hdne
    rcases hnw with hnwe | ⟨n, ncp, hnwd, hnne, hndig, hncp⟩
    · subst hnwe
      have hsp1 : spanDigits (o ++ (',' :: (d ++ (' ' :: '@' :: '@' :: rest))))
          = (o, ',' :: (d ++ (' ' :: '@' :: '@' :: rest))) :=
        spanDigits_exact hodig (by
          intro c cs he
          injection he with h1 _
          rw [← h1]
          decide)
      have hsp2 : spanDigits (d ++ (' ' :: '@' :: '@' :: rest))
          = (d, ' ' :: '@' :: '@' :: rest) :=
        spanDigits_exact hddig (headDigit_false_space rest)
      simp [parseHunkHeader, expectChars, optCommaCount, optNewRange,
        hsp1, hsp2, hoef, hdef, hnrASpace, List.append_assoc]
    · subst hnwd
      have hnef : n.isEmpty = false := isEmpty_false_of_ne_nil hnne
      rcases hncp with hncpe | ⟨nc, hncpd, hncdig⟩
      · subst hncpe
        have hsp1 : spanDigits (o ++ (',' :: (d ++
            (' ' :: '+' :: (n ++ (' ' :: '@' :: '@' :: rest))))))
            = (o, ',' :: (d ++
              (' ' :: '+' :: (n ++ (' ' :: '@' :: '@' :: rest))))) :=
          spanDigits_exact hodig (by
            intro c cs he
            injection he with h1 _
            rw [← h1]
            decide)
        have hsp2 : spanDigits (d ++
            (' ' :: '+' :: (n ++ (' ' :: '@' :: '@' :: rest))))
            = (d, ' ' :: '+' :: (n ++ (' ' :: '@' :: '@' :: rest))) :=
          spanDigits_exact hddig (by
            intro c cs he
            injection he with h1 _
            rw [← h1]
            decide)
        have hsp3 : spanDigits (n ++ (' ' :: '@' :: '@' :: rest))
            = (n, ' ' :: '@' :: '@' :: rest) :=
          spanDigits_exact hndig (headDigit_false_space rest)
        simp [parseHunkHeader, expectChars, optCommaCount, optNewRange,
          hsp1, hsp2, hsp3, hoef, hdef, hnef, hccASpace, List.append_assoc]
      · subst hncpd
        have hsp1 : spanDigits (o ++ (',' :: (d ++ (' ' :: '+' ::
            (n ++ (',' :: (nc ++ (' ' :: '@' :: '@' :: rest))))))))
            = (o, ',' :: (d ++ (' ' :: '+' ::
              (n ++ (',' :: (nc ++ (' ' :: '@' :: '@' :: rest))))))) :=
          spanDigits_exact hodig (by
            intro c cs he
            injection he with h1 _
            rw [← h1]
            decide)
        have hsp2 : spanDigits (d ++ (' ' :: '+' ::
            (n ++ (',' :: (nc ++ (' ' :: '@' :: '@' :: rest))))))
            = (d, ' ' :: '+' ::
              (n ++ (',' :: (nc ++ (' ' :: '@' :: '@' :: rest))))) :=
          spanDigits_exact hddig (by
            intro c cs he
            injection he with h1 _
            rw [← h1]
            decide)
        have hsp3 : spanDigits
            (n ++ (',' :: (nc ++ (' ' :: '@' :: '@' :: rest))))
            = (n, ',' :: (nc ++ (' ' :: '@' :: '@' :: rest))) :=
          spanDigits_exact hndig (by
            intro c cs he
            injection he with h1 _
            rw [← h1]
            decide)
        have hsp4 : spanDigits (nc ++ (' ' :: '@' :: '@' :: rest))
            = (nc, ' ' :: '@' :: '@' :: rest) :=
          spanDigits_exact hncdig (headDigit_false_space rest)
        simp [parseHunkHeader, expectChars, optCommaCount, optNewRange,
          hsp1, hsp2, hsp3, hsp4, hoef, hdef, hnef, hccASpace,
          List.append_assoc]

/-! ## Helper lemmas for the hunk-segmenter claim -/

lemma addLine_diffLines (h : DiffHunk) (x : DiffLine) :
    (addLineToHunk h x).diffLines = h.diffLines ++ [x] := by
  unfold addLineToHunk
  cases x.type <;> rfl

lemma sandwiched_addLine_change (h : DiffHunk) (x : DiffLine)
    (hx : x.type = DiffChangeType.Add ∨ x.type = DiffChangeType.Delete) :
    hunkHasSandwichedChanges (addLineToHunk h x) = false := by
  rcases hx with hx | hx <;>
    simp [hunkHasSandwichedChanges, addLine_diffLines, List.getLast?_concat,
      hx]

lemma sandwiched_addLine_context (h : DiffHunk) (x : DiffLine)
    (hx : x.type = DiffChangeType.Context) :
    hunkHasSandwichedChanges (addLineToHunk h x) = hunkHasChanges h := by
  simp [hunkHasSandwichedChanges, hunkHasChanges, addLine_diffLines,
    List.getLast?_concat, hx, List.any_append]

lemma hasChanges_none_of_all_context (h : DiffHunk)
    (hall : ∀ l ∈ h.diffLines, l.type = DiffChangeType.Context) :
    hunkHasChanges h = false := by
  unfold hunkHasChanges
  rw [List.any_eq_false]
  intro l hl
  simp [hall l hl]

lemma sandwiched_false_of_no_changes (h : DiffHunk)
    (hc : hunkHasChanges h = false) : hunkHasSandwichedChanges h = false := by
  simp [hunkHasSandwichedChanges, hc]

lemma takeWhile_snoc {α : Type} (P : α → Bool) (pre : List α) (x : α) :
    (pre ++ [x]).takeWhile P
      = if pre.all P then pre ++ (if P x then [x] else [])
        else pre.takeWhile P := by
  induction pre with
  | nil =>
    by_cases hx : P x <;> simp [List.takeWhile_cons, hx]
  | cons a t ih =>
    by_cases pa : P a
    · simp only [List.cons_append, List.takeWhile_cons, pa, if_true,
        List.all_cons, Bool.true_and]
      rw [ih]
      by_cases hat : t.all P
      · simp [hat]
      · simp [hat]
    · simp [List.takeWhile_cons, pa, List.all_cons]

lemma takeWhile_eq_self_of_all {α : Type} (P : α → Bool) (l : List α)
    (h : l.all P = true) : l.takeWhile P = l := by
  induction l with
  | nil => rfl
  | cons a t ih =>
    rw [List.all_cons, Bool.and_eq_true] at h
    rw [List.takeWhile_cons, if_pos h.1, ih h.2]

lemma mem_takeWhile_snoc_iff {α : Type} [DecidableEq α] (P : α → Bool)
    (pre : List α) (x y : α) (hne : y ≠ x) :
    (y ∈ (pre ++ [x]).takeWhile P) ↔ y ∈ pre.takeWhile P := by
  rw [takeWhile_snoc]
  by_cases hall : pre.all P
  · rw [if_pos hall, takeWhile_eq_self_of_all P pre hall]
    constructor
    · intro h
      rcases List.mem_append.mp h with h | h
      · exact h
      · exfalso
        by_cases hx : P x
        · rw [if_pos hx] at h
          simp only [List.mem_singleton] at h
          exact hne h
        · rw [if_neg hx] at h
          cases h
    · intro h
      exact List.mem_append.mpr (Or.inl h)
  · rw [if_neg hall]

lemma noCtx_iff (l : DiffLine) :
    ((!(l.type == DiffChangeType.Context)) = true)
      ↔ l.type ≠ DiffChangeType.Context := by
  cases h : l.type <;> simp [h]

lemma all_noCtx_iff (pre : List DiffLine) :
    (pre.all (fun l => !(l.type == DiffChangeType.Context)) = true)
      ↔ ∀ l ∈ pre, l.type ≠ DiffChangeType.Context := by
  rw [List.all_eq_true]
  constructor
  · intro h l hl
    exact (noCtx_iff l).mp (h l hl)
  · intro h l hl
    exact (noCtx_iff l).mpr (h l hl)

lemma count_single {α : Type} [DecidableEq α] (x y : α) :
    [x].count y = (if x = y then 1 else 0) := by
  by_cases h : x = y
  · subst h; simp
  · rw [if_neg h, List.count_eq_zero]
    intro he
    rw [List.mem_singleton] at he
    exact h he.symm

lemma count_snoc {α : Type} [DecidableEq α] (l : List α) (x y : α) :
    (l ++ [x]).count y = l.count y + (if x = y then 1 else 0) := by
  rw [List.count_append, count_single]

lemma mem_of_count_one {α : Type} [DecidableEq α] {l : List α} {a : α}
    (h : l.count a = 1) : a ∈ l := by
  by_contra hn
  rw [List.count_eq_zero.mpr hn] at h
  cases h

lemma splitInit_inv : SplitInv [] ⟨[], none, none⟩ := by
  refine ⟨?_, ?_, ?_, ?_, ?_⟩
  · simp
  · intro _; exact ⟨rfl, rfl⟩
  · intro nh h; cases h
  · intro c h hs; intro hn; cases h
  · intro x
    constructor
    · intro _; exact ⟨rfl, rfl⟩
    · intro h1
      simp at h1

lemma splitStep_inv (pre : List DiffLine) (S : SplitState) (x : DiffLine)
    (H : SplitInv pre S) : SplitInv (pre ++ [x]) (splitStep S x) := by
  obtain ⟨h1, h2, h3, h4, h5⟩ := H
  by_cases hctx : x.type = DiffChangeType.Context
  · -- the incoming line is Context
    cases hcu : S.cur with
    | none =>
      obtain ⟨hout, hnext⟩ := h2 hcu
      have hsand : hunkHasSandwichedChanges (addLineToHunk (newHunk x) x)
          = false := by
        rw [sandwiched_addLine_context _ _ hctx]
        exact hasChanges_none_of_all_context _ (by intro l hl; cases hl)
      have hS : splitStep S x
          = ⟨S.out, some (addLineToHunk (newHunk x) x), S.next⟩ := by
        simp [splitStep, hctx, hcu, hsand]
      rw [hS]
      refine ⟨?_, ?_, ?_, ?_, ?_⟩
      · constructor
        · intro habs; exact Option.noConfusion habs
        · intro hall
          exact absurd hctx
            (hall x (List.mem_append.mpr (Or.inr (List.mem_singleton_self x))))
      · intro habs; exact Option.noConfusion habs
      · intro nh hnh
        dsimp only at hnh
        rw [hnext] at hnh
        cases hnh
      · intro c hc hs
        dsimp only at hc
        injection hc with hc
        rw [← hc, hsand] at hs
        cases hs
      · intro y
        have hNy : countN y ⟨S.out, some (addLineToHunk (newHunk x) x),
            S.next⟩ = 0 := by
          simp [countN, hnext, linesOf]
        constructor
        · intro hc0
          rw [count_snoc] at hc0
          by_cases hxy : x = y
          · rw [if_pos hxy] at hc0; omega
          · rw [if_neg hxy] at hc0
            refine ⟨?_, hNy⟩
            simp [countQ, linesOf, hout, addLine_diffLines, newHunk,
              count_single, hxy]
        · intro hc1
          rw [count_snoc] at hc1
          by_cases hxy : x = y
          · -- the incoming context line itself
            subst hxy
            constructor
            · intro hty
              rcases hty with hty | hty <;> rw [hctx] at hty <;> cases hty
            · intro _
              have hq1 : countQ x ⟨S.out, some (addLineToHunk (newHunk x) x),
                  S.next⟩ = 1 := by
                simp [countQ, linesOf, hout, addLine_diffLines, newHunk,
                  count_single]
              rw [hq1, hNy]
              omega
          · rw [if_neg hxy] at hc1
            have hpre1 : pre.count y = 1 := by omega
            have hymem : y ∈ pre := mem_of_count_one hpre1
            have hynoctx := h1.mp hcu y hymem
            constructor
            · intro hty
              have hold := ((h5 y).2 hpre1).1 hty
              have hq0 : countQ y S = 0 := by
                simp [countQ, hout, hcu, linesOf]
              have hq' : countQ y ⟨S.out, some (addLineToHunk (newHunk x) x),
                  S.next⟩ = 0 := by
                simp [countQ, linesOf, hout, addLine_diffLines, newHunk,
                  count_single, hxy]
              have hyx : y ≠ x := fun he => hxy he.symm
              have hiff := mem_takeWhile_snoc_iff
                (fun l => !(l.type == DiffChangeType.Context)) pre x y hyx
              rw [hq', if_congr hiff rfl rfl]
              have hh := hold.1
              rw [hq0] at hh
              exact ⟨hh, hNy⟩
            · intro hty
              exact absurd hty hynoctx
    | some c =>
      have hsand1 : hunkHasSandwichedChanges (addLineToHunk c x)
          = hunkHasChanges c := sandwiched_addLine_context c x hctx
      by_cases hhc : hunkHasChanges c = true
      · -- context after changes: line duplicated into the pending next hunk
        have hS : splitStep S x
            = ⟨S.out, some (addLineToHunk c x),
               some (addLineToHunk (S.next.getD (newHunk x)) x)⟩ := by
          simp [splitStep, hctx, hcu, hsand1, hhc]
        rw [hS]
        refine ⟨?_, ?_, ?_, ?_, ?_⟩
        · constructor
          · intro habs; exact Option.noConfusion habs
          · intro hall
            exact absurd hctx
              (hall x (List.mem_append.mpr (Or.inr (List.mem_singleton_self x))))
        · intro habs; exact Option.noConfusion habs
        · intro nh hnh
          dsimp only at hnh
          injection hnh with hnh
          constructor
          · rw [← hnh, addLine_diffLines]
            intro l hl
            rcases List.mem_append.mp hl with hl | hl
            · cases hnx : S.next with
              | none => rw [hnx] at hl; cases hl
              | some nh0 =>
                rw [hnx] at hl
                exact (h3 nh0 hnx).1 l hl
            · rw [List.mem_singleton.mp hl]; exact hctx
          · exact ⟨addLineToHunk c x, rfl, by rw [hsand1]; exact hhc⟩
        · intro c' hc' hs'
          intro habs
          exact Option.noConfusion habs
        · intro y
          have hQeq : ∀ (z : DiffLine), countQ z ⟨S.out, some (addLineToHunk c x),
              some (addLineToHunk (S.next.getD (newHunk x)) x)⟩
              = countQ z S + (if x = z then 1 else 0) := by
            intro z
            simp [countQ, linesOf, hcu, addLine_diffLines, List.count_append,
              count_single]
            omega
          have hNeq : ∀ (z : DiffLine), countN z ⟨S.out, some (addLineToHunk c x),
              some (addLineToHunk (S.next.getD (newHunk x)) x)⟩
              = countN z S + (if x = z then 1 else 0) := by
            intro z
            cases hnx : S.next with
            | none =>
              simp [countN, linesOf, hnx, addLine_diffLines, newHunk,
                count_single]
            | some nh0 =>
              simp [countN, linesOf, hnx, addLine_diffLines,
                List.count_append, count_single]
          constructor
          · intro hc0
            rw [count_snoc] at hc0
            by_cases hxy : x = y
            · rw [if_pos hxy] at hc0; omega
            · rw [if_neg hxy] at hc0
              have hpre0 : pre.count y = 0 := by omega
              obtain ⟨hq0, hn0⟩ := (h5 y).1 hpre0
              rw [hQeq y, hNeq y, if_neg hxy, hq0, hn0]
              exact ⟨rfl, rfl⟩
          · intro hc1
            rw [count_snoc] at hc1
            by_cases hxy : x = y
            · subst hxy
              rw [if_pos rfl] at hc1
              have hpre0 : pre.count x = 0 := by omega
              obtain ⟨hq0, hn0⟩ := (h5 x).1 hpre0
              constructor
              · intro hty
                rcases hty with hty | hty <;> rw [hctx] at hty <;> cases hty
              · intro _
                rw [hQeq x, hNeq x, if_pos rfl, hq0, hn0]
                omega
            · rw [if_neg hxy] at hc1
              have hpre1 : pre.count y = 1 := by omega
              have hyx : y ≠ x := fun he => hxy he.symm
              have hiff := mem_takeWhile_snoc_iff
                (fun l => !(l.type == DiffChangeType.Context)) pre x y hyx
              constructor
              · intro hty
                have hold := ((h5 y).2 hpre1).1 hty
                rw [hQeq y, hNeq y, if_neg hxy, if_congr hiff rfl rfl]
                constructor
                · rw [Nat.add_zero]
                  exact hold.1
                · rw [Nat.add_zero]
                  exact hold.2
              · intro hty
                have hold := ((h5 y).2 hpre1).2 hty
                rw [hQeq y, hNeq y, if_neg hxy]
                omega
      · -- context with no pending changes: just grows the current hunk
        have hnx : S.next = none := by
          cases hnxx : S.next with
          | none => rfl
          | some nh0 =>
            obtain ⟨_, c', hc', hs'⟩ := h3 nh0 hnxx
            rw [hcu] at hc'
            injection hc' with hc'
            rw [← hc'] at hs'
            unfold hunkHasSandwichedChanges at hs'
            rw [Bool.and_eq_true] at hs'
            exact absurd hs'.1 hhc
        have hS : splitStep S x = ⟨S.out, some (addLineToHunk c x), S.next⟩ := by
          simp [splitStep, hctx, hcu, hsand1, hhc]
        rw [hS]
        refine ⟨?_, ?_, ?_, ?_, ?_⟩
        · constructor
          · intro habs; exact Option.noConfusion habs
          · intro hall
            exact absurd hctx
              (hall x (List.mem_append.mpr (Or.inr (List.mem_singleton_self x))))
        · intro habs; exact Option.noConfusion habs
        · intro nh hnh
          dsimp only at hnh
          rw [hnx] at hnh
          cases hnh
        · intro c' hc' hs'
          dsimp only at hc'
          injection hc' with hc'
          rw [← hc', hsand1] at hs'
          exact absurd hs' hhc
        · intro y
          have hQeq : ∀ (z : DiffLine), countQ z
              ⟨S.out, some (addLineToHunk c x), S.next⟩
              = countQ z S + (if x = z then 1 else 0) := by
            intro z
            simp [countQ, linesOf, hcu, addLine_diffLines, List.count_append,
              count_single]
            omega
          have hNy : ∀ (z : DiffLine), countN z
              ⟨S.out, some (addLineToHunk c x), S.next⟩ = 0 := by
            intro z
            simp [countN, hnx, linesOf]
          have hNyS : ∀ (z : DiffLine), countN z S = 0 := by
            intro z
            simp [countN, hnx, linesOf]
          constructor
          · intro hc0
            rw [count_snoc] at hc0
            by_cases hxy : x = y
            · rw [if_pos hxy] at hc0; omega
            · rw [if_neg hxy] at hc0
              have hpre0 : pre.count y = 0 := by omega
              obtain ⟨hq0, _⟩ := (h5 y).1 hpre0
              rw [hQeq y, if_neg hxy, hq0]
              exact ⟨rfl, hNy y⟩
          · intro hc1
            rw [count_snoc] at hc1
            by_cases hxy : x = y
            · subst hxy
              rw [if_pos rfl] at hc1
              have hpre0 : pre.count x = 0 := by omega
              obtain ⟨hq0, _⟩ := (h5 x).1 hpre0
              constructor
              · intro hty
                rcases hty with hty | hty <;> rw [hctx] at hty <;> cases hty
              · intro _
                rw [hQeq x, if_pos rfl, hq0, hNy x]
                omega
            · rw [if_neg hxy] at hc1
              have hpre1 : pre.count y = 1 := by omega
              have hyx : y ≠ x := fun he => hxy he.symm
              have hiff := mem_takeWhile_snoc_iff
                (fun l => !(l.type == DiffChangeType.Context)) pre x y hyx
              constructor
              · intro hty
                have hold := ((h5 y).2 hpre1).1 hty
                rw [hQeq y, if_neg hxy, if_congr hiff rfl rfl]
                exact ⟨by rw [hold.1]; omega, hNy y⟩
              · intro hty
                have hold := ((h5 y).2 hpre1).2 hty
                rw [hQeq y, if_neg hxy, hNy y]
                have := hNyS y
                omega
  · -- the incoming line is a change or control line
    cases hcu : S.cur with
    | none =>
      have hS : splitStep S x = S := by
        simp [splitStep, hctx, hcu]
      rw [hS]
      obtain ⟨hout, hnext⟩ := h2 hcu
      refine ⟨?_, h2, h3, h4, ?_⟩
      · rw [h1]
        constructor
        · intro hall l hl
          rcases List.mem_append.mp hl with hl | hl
          · exact hall l hl
          · rw [List.mem_singleton.mp hl]; exact hctx
        · intro hall l hl
          exact hall l (List.mem_append.mpr (Or.inl hl))
      · intro y
        constructor
        · intro hc0
          rw [count_snoc] at hc0
          by_cases hxy : x = y
          · rw [if_pos hxy] at hc0; omega
          · rw [if_neg hxy] at hc0
            exact (h5 y).1 (by omega)
        · intro hc1
          rw [count_snoc] at hc1
          by_cases hxy : x = y
          · subst hxy
            rw [if_pos rfl] at hc1
            have hpre0 : pre.count x = 0 := by omega
            obtain ⟨hq0, hn0⟩ := (h5 x).1 hpre0
            constructor
            · intro _
              have hallt : pre.all (fun l => !(l.type == DiffChangeType.Context))
                  = true := (all_noCtx_iff pre).mpr (h1.mp hcu)
              have hPx : (!(x.type == DiffChangeType.Context)) = true :=
                (noCtx_iff x).mpr hctx
              have hxin : x ∈ (pre ++ [x]).takeWhile
                  (fun l => !(l.type == DiffChangeType.Context)) := by
                rw [takeWhile_snoc, if_pos hallt, if_pos hPx]
                exact List.mem_append.mpr (Or.inr (List.mem_singleton_self x))
              rw [if_pos hxin]
              exact ⟨hq0, hn0⟩
            · intro hty
              exact absurd hty hctx
          · rw [if_neg hxy] at hc1
            have hpre1 : pre.count y = 1 := by omega
            have hyx : y ≠ x := fun he => hxy he.symm
            have hiff := mem_takeWhile_snoc_iff
              (fun l => !(l.type == DiffChangeType.Context)) pre x y hyx
            constructor
            · intro hty
              have hold := ((h5 y).2 hpre1).1 hty
              rw [if_congr hiff rfl rfl]
              exact hold
            · intro hty
              exact ((h5 y).2 hpre1).2 hty
    | some c =>
      have hcsome : ¬ ∀ l ∈ pre, l.type ≠ DiffChangeType.Context := by
        intro hall
        rw [h1.mpr hall] at hcu
        cases hcu
      have hallf : pre.all (fun l => !(l.type == DiffChangeType.Context))
          = false := by
        cases hP : pre.all (fun l => !(l.type == DiffChangeType.Context))
        · rfl
        · exact absurd ((all_noCtx_iff pre).mp hP) hcsome
      have htW : (pre ++ [x]).takeWhile
          (fun l => !(l.type == DiffChangeType.Context))
          = pre.takeWhile (fun l => !(l.type == DiffChangeType.Context)) := by
        rw [takeWhile_snoc, hallf]
        simp
      have hcl1 : (⟨S.out, some c, S.next⟩ : SplitState).cur = none
          ↔ ∀ l ∈ pre ++ [x], l.type ≠ DiffChangeType.Context := by
        constructor
        · intro habs; exact Option.noConfusion habs
        · intro hall
          exact absurd (fun l hl => hall l (List.mem_append.mpr (Or.inl hl)))
            hcsome
      by_cases hsc : hunkHasSandwichedChanges c = true
      · -- flush current, promote next
        have hnxne := h4 c hcu hsc
        cases hnx : S.next with
        | none => exact absurd hnx hnxne
        | some nh =>
        obtain ⟨hallnh, _⟩ := h3 nh hnx
        have hnhnc : hunkHasChanges nh = false :=
          hasChanges_none_of_all_context _ hallnh
        by_cases hda : x.type = DiffChangeType.Delete
            ∨ x.type = DiffChangeType.Add
        · have hS : splitStep S x
              = ⟨S.out ++ [c], some (addLineToHunk nh x), none⟩ := by
            simp [splitStep, hctx, hcu, hsc, hnx, hda]
          rw [hS]
          refine ⟨?_, ?_, ?_, ?_, ?_⟩
          · constructor
            · intro habs; exact Option.noConfusion habs
            · intro hall
              exact absurd
                (fun l hl => hall l (List.mem_append.mpr (Or.inl hl))) hcsome
          · intro habs; exact Option.noConfusion habs
          · intro nh' hnh'
            dsimp only at hnh'
            cases hnh'
          · intro c' hc' hs'
            dsimp only at hc'
            injection hc' with hc'
            rw [← hc', sandwiched_addLine_change nh x hda.symm] at hs'
            cases hs'
          · intro y
            have hQeq : ∀ (z : DiffLine), countQ z
                ⟨S.out ++ [c], some (addLineToHunk nh x), none⟩
                = countQ z S + countN z S + (if x = z then 1 else 0) := by
              intro z
              simp [countQ, countN, linesOf, hcu, hnx, addLine_diffLines,
                List.count_append, count_single]
              omega
            have hNy : ∀ (z : DiffLine), countN z
                ⟨S.out ++ [c], some (addLineToHunk nh x), none⟩ = 0 := by
              intro z
              simp [countN, linesOf]
            constructor
            · intro hc0
              rw [count_snoc] at hc0
              by_cases hxy : x = y
              · rw [if_pos hxy] at hc0; omega
              · rw [if_neg hxy] at hc0
                have hpre0 : pre.count y = 0 := by omega
                obtain ⟨hq0, hn0⟩ := (h5 y).1 hpre0
                rw [hQeq y, if_neg hxy, hq0, hn0]
                exact ⟨rfl, hNy y⟩
            · intro hc1
              rw [count_snoc] at hc1
              by_cases hxy : x = y
              · subst hxy
                rw [if_pos rfl] at hc1
                have hpre0 : pre.count x = 0 := by omega
                obtain ⟨hq0, hn0⟩ := (h5 x).1 hpre0
                constructor
                · intro _
                  have hxnot : x ∉ (pre ++ [x]).takeWhile
                      (fun l => !(l.type == DiffChangeType.Context)) := by
                    rw [htW]
                    intro hmem
                    exact (List.count_eq_zero.mp hpre0)
                      ((List.takeWhile_sublist _).subset hmem)
                  rw [if_neg hxnot, hQeq x, if_pos rfl, hq0, hn0]
                  exact ⟨rfl, hNy x⟩
                · intro hty
                  exact absurd hty hctx
              · rw [if_neg hxy] at hc1
                have hpre1 : pre.count y = 1 := by omega
                have hyx : y ≠ x := fun he => hxy he.symm
                have hiff := mem_takeWhile_snoc_iff
                  (fun l => !(l.type == DiffChangeType.Context)) pre x y hyx
                constructor
                · intro hty
                  have hold := ((h5 y).2 hpre1).1 hty
                  rw [if_congr hiff rfl rfl, hQeq y, if_neg hxy, hold.2]
                  exact ⟨hold.1, hNy y⟩
                · intro hty
                  have hold := ((h5 y).2 hpre1).2 hty
                  rw [hQeq y, if_neg hxy, hNy y]
                  omega
        · -- a control line while sandwiched: flush and promote, store nothing
          have hS : splitStep S x = ⟨S.out ++ [c], some nh, none⟩ := by
            simp [splitStep, hctx, hcu, hsc, hnx, hda]
          rw [hS]
          refine ⟨?_, ?_, ?_, ?_, ?_⟩
          · constructor
            · intro habs; exact Option.noConfusion habs
            · intro hall
              exact absurd
                (fun l hl => hall l (List.mem_append.mpr (Or.inl hl))) hcsome
          · intro habs; exact Option.noConfusion habs
          · intro nh' hnh'
            dsimp only at hnh'
            cases hnh'
          · intro c' hc' hs'
            dsimp only at hc'
            injection hc' with hc'
            rw [← hc', sandwiched_false_of_no_changes nh hnhnc] at hs'
            cases hs'
          · intro y
            have hQeq : ∀ (z : DiffLine), countQ z
                ⟨S.out ++ [c], some nh, none⟩
                = countQ z S + countN z S := by
              intro z
              simp [countQ, countN, linesOf, hcu, hnx, List.count_append]
              omega
            have hNy : ∀ (z : DiffLine), countN z
                ⟨S.out ++ [c], some nh, none⟩ = 0 := by
              intro z
              simp [countN, linesOf]
            constructor
            · intro hc0
              rw [count_snoc] at hc0
              by_cases hxy : x = y
              · rw [if_pos hxy] at hc0; omega
              · rw [if_neg hxy] at hc0
                have hpre0 : pre.count y = 0 := by omega
                obtain ⟨hq0, hn0⟩ := (h5 y).1 hpre0
                rw [hQeq y, hq0, hn0]
                exact ⟨rfl, hNy y⟩
            · intro hc1
              rw [count_snoc] at hc1
              by_cases hxy : x = y
              · subst hxy
                constructor
                · intro hty
                  exact absurd hty.symm hda
                · intro hty
                  exact absurd hty hctx
              · rw [if_neg hxy] at hc1
                have hpre1 : pre.count y = 1 := by omega
                have hyx : y ≠ x := fun he => hxy he.symm
                have hiff := mem_takeWhile_snoc_iff
                  (fun l => !(l.type == DiffChangeType.Context)) pre x y hyx
                constructor
                · intro hty
                  have hold := ((h5 y).2 hpre1).1 hty
                  rw [if_congr hiff rfl rfl, hQeq y, hold.2]
                  exact ⟨by rw [hold.1]; omega, hNy y⟩
                · intro hty
                  have hold := ((h5 y).2 hpre1).2 hty
                  rw [hQeq y, hNy y]
                  omega
      · -- no sandwiched changes: keep accumulating into current
        have hscf : hunkHasSandwichedChanges c = false := by
          revert hsc
          cases hunkHasSandwichedChanges c <;> simp
        have hnx : S.next = none := by
          cases hnxx : S.next with
          | none => rfl
          | some nh0 =>
            obtain ⟨_, c', hc', hs'⟩ := h3 nh0 hnxx
            rw [hcu] at hc'
            injection hc' with hc'
            rw [← hc', hscf] at hs'
            cases hs'
        have hNS : ∀ (z : DiffLine), countN z S = 0 := by
          intro z
          simp [countN, hnx, linesOf]
        by_cases hda : x.type = DiffChangeType.Delete
            ∨ x.type = DiffChangeType.Add
        · have hS : splitStep S x
              = ⟨S.out, some (addLineToHunk c x), S.next⟩ := by
            simp [splitStep, hctx, hcu, hsc, hda]
          rw [hS]
          refine ⟨?_, ?_, ?_, ?_, ?_⟩
          · constructor
            · intro habs; exact Option.noConfusion habs
            · intro hall
              exact absurd
                (fun l hl => hall l (List.mem_append.mpr (Or.inl hl))) hcsome
          · intro habs; exact Option.noConfusion habs
          · intro nh' hnh'
            dsimp only at hnh'
            rw [hnx] at hnh'
            cases hnh'
          · intro c' hc' hs'
            dsimp only at hc'
            injection hc' with hc'
            rw [← hc', sandwiched_addLine_change c x hda.symm] at hs'
            cases hs'
          · intro y
            have hQeq : ∀ (z : DiffLine), countQ z
                ⟨S.out, some (addLineToHunk c x), S.next⟩
                = countQ z S + (if x = z then 1 else 0) := by
              intro z
              simp [countQ, linesOf, hcu, addLine_diffLines,
                List.count_append, count_single]
              omega
            have hNy : ∀ (z : DiffLine), countN z
                ⟨S.out, some (addLineToHunk c x), S.next⟩ = 0 := by
              intro z
              simp [countN, hnx, linesOf]
            constructor
            · intro hc0
              rw [count_snoc] at hc0
              by_cases hxy : x = y
              · rw [if_pos hxy] at hc0; omega
              · rw [if_neg hxy] at hc0
                have hpre0 : pre.count y = 0 := by omega
                obtain ⟨hq0, _⟩ := (h5 y).1 hpre0
                rw [hQeq y, if_neg hxy, hq0]
                exact ⟨rfl, hNy y⟩
            · intro hc1
              rw [count_snoc] at hc1
              by_cases hxy : x = y
              · subst hxy
                rw [if_pos rfl] at hc1
                have hpre0 : pre.count x = 0 := by omega
                obtain ⟨hq0, _⟩ := (h5 x).1 hpre0
                constructor
                · intro _
                  have hxnot : x ∉ (pre ++ [x]).takeWhile
                      (fun l => !(l.type == DiffChangeType.Context)) := by
                    rw [htW]
                    intro hmem
                    exact (List.count_eq_zero.mp hpre0)
                      ((List.takeWhile_sublist _).subset hmem)
                  rw [if_neg hxnot, hQeq x, if_pos rfl, hq0]
                  exact ⟨rfl, hNy x⟩
                · intro hty
                  exact absurd hty hctx
              · rw [if_neg hxy] at hc1
                have hpre1 : pre.count y = 1 := by omega
                have hyx : y ≠ x := fun he => hxy he.symm
                have hiff := mem_takeWhile_snoc_iff
                  (fun l => !(l.type == DiffChangeType.Context)) pre x y hyx
                constructor
                · intro hty
                  have hold := ((h5 y).2 hpre1).1 hty
                  rw [if_congr hiff rfl rfl, hQeq y, if_neg hxy]
                  exact ⟨by rw [Nat.add_zero, hold.1], hNy y⟩
                · intro hty
                  have hold := ((h5 y).2 hpre1).2 hty
                  rw [hQeq y, if_neg hxy, hNy y]
                  have := hNS y
                  omega
        · -- a stray control line: state unchanged
          have hS : splitStep S x = ⟨S.out, some c, S.next⟩ := by
            simp [splitStep, hctx, hcu, hsc, hda]
          rw [hS]
          have hQeq : ∀ (z : DiffLine), countQ z ⟨S.out, some c, S.next⟩
              = countQ z S := by
            intro z
            simp [countQ, linesOf, hcu]
          have hNeq : ∀ (z : DiffLine), countN z ⟨S.out, some c, S.next⟩
              = countN z S := by
            intro z
            simp [countN, linesOf]
          refine ⟨hcl1, ?_, ?_, ?_, ?_⟩
          · intro habs; exact Option.noConfusion habs
          · intro nh' hnh'
            dsimp only at hnh'
            rw [hnx] at hnh'
            cases hnh'
          · intro c' hc' hs'
            dsimp only at hc'
            injection hc' with hc'
            rw [← hc', hscf] at hs'
            cases hs'
          · intro y
            constructor
            · intro hc0
              rw [count_snoc] at hc0
              by_cases hxy : x = y
              · rw [if_pos hxy] at hc0; omega
              · rw [if_neg hxy] at hc0
                have hpre0 : pre.count y = 0 := by omega
                obtain ⟨hq0, hn0⟩ := (h5 y).1 hpre0
                rw [hQeq y, hNeq y]
                exact ⟨hq0, hn0⟩
            · intro hc1
              rw [count_snoc] at hc1
              by_cases hxy : x = y
              · subst hxy
                constructor
                · intro hty
                  exact absurd hty.symm hda
                · intro hty
                  exact absurd hty hctx
              · rw [if_neg hxy] at hc1
                have hpre1 : pre.count y = 1 := by omega
                have hyx : y ≠ x := fun he => hxy he.symm
                have hiff := mem_takeWhile_snoc_iff
                  (fun l => !(l.type == DiffChangeType.Context)) pre x y hyx
                constructor
                · intro hty
                  have hold := ((h5 y).2 hpre1).1 hty
                  rw [if_congr hiff rfl rfl, hQeq y, hNeq y]
                  exact hold
                · intro hty
                  have hold := ((h5 y).2 hpre1).2 hty
                  rw [hQeq y, hNeq y]
                  exact hold
lemma split_fold_inv (ls pre : List DiffLine) (S : SplitState)
    (H : SplitInv pre S) : SplitInv (pre ++ ls) (ls.foldl splitStep S) := by
  induction ls generalizing pre S with
  | nil => simpa using H
  | cons a t ih =>
    rw [List.foldl_cons]
    have hres := ih (pre ++ [a]) (splitStep S a) (splitStep_inv pre S a H)
    simpa [List.append_assoc] using hres

lemma pairwise_positions_restrict (hs : List DiffHunk)
    (hP : List.Pairwise (· < ·) (hunkPositions hs)) :
    ∀ h ∈ hs, List.Pairwise (· < ·)
      (h.diffLines.map (fun l => l.positionInHunk)) := by
  induction hs with
  | nil => intro h hm; cases hm
  | cons a t ih =>
    rw [show hunkPositions (a :: t)
        = a.diffLines.map (fun l => l.positionInHunk) ++ hunkPositions t from
      by simp [hunkPositions, linesOf]] at hP
    have h2 := List.pairwise_append.mp hP
    intro h hm
    rcases List.mem_cons.mp hm with hm | hm
    · rw [hm]; exact h2.1
    · exact ih h2.2.1 h hm

lemma nodup_of_parsed (p : List Char) (h : DiffHunk)
    (hm : h ∈ parsePatch p) : h.diffLines.Nodup := by
  obtain ⟨inv, heq⟩ := parsePatch_inv p
  obtain ⟨_, _, _, hD, _⟩ := inv
  have hPP : List.Pairwise (· < ·) (hunkPositions (parsePatch p)) := by
    rw [heq]; exact hD
  have hp := pairwise_positions_restrict _ hPP h hm
  exact List.Pairwise.of_map (fun l => l.positionInHunk)
    (fun a b hlt he => absurd (he ▸ hlt) (lt_irrefl _)) hp

/-! ## Claim theorems -/

/-- C1 (counterexample): the segmenter does not keep every change line —
for the parsed hunk of `@@ -1 +1 @@` / `+x`, whose `+x` line has no
preceding context line, `splitIntoSmallerHunks` returns no hunks at all,
so that `Add` line appears in zero output hunks. -/
theorem split_information_content_claim_false :
    (((parsePatch "@@ -1 +1 @@\n+x".toList).getD 0 dummyHunk).diffLines.getD 1
        dummyLine).type = DiffChangeType.Add
      ∧ (((parsePatch "@@ -1 +1 @@\n+x".toList).getD 0 dummyHunk).diffLines.getD
          1 dummyLine)
          ∈ ((parsePatch "@@ -1 +1 @@\n+x".toList).getD 0 dummyHunk).diffLines
      ∧ splitIntoSmallerHunks
          ((parsePatch "@@ -1 +1 @@\n+x".toList).getD 0 dummyHunk) = [] := by
  decide

/-- C1 (amended): for every hunk produced by `parsePatch`, every `Add` or
`Delete` line that is preceded by at least one `Context` line appears in
exactly one output hunk of `splitIntoSmallerHunks` (`Add`/`Delete` lines
before the first `Context` line are dropped and appear in none), and every
`Context` line appears in exactly one or exactly two output hunks. -/
theorem split_information_content (p : List Char) (h : DiffHunk)
    (hm : h ∈ parsePatch p) (x : DiffLine) (hx : x ∈ h.diffLines) :
    ((x.type = DiffChangeType.Add ∨ x.type = DiffChangeType.Delete) →
        (linesOf (splitIntoSmallerHunks h)).count x
          = (if x ∈ h.diffLines.takeWhile
                (fun l => !(l.type == DiffChangeType.Context))
             then 0 else 1))
      ∧ (x.type = DiffChangeType.Context →
          (linesOf (splitIntoSmallerHunks h)).count x = 1
            ∨ (linesOf (splitIntoSmallerHunks h)).count x = 2) := by
  have hnd := nodup_of_parsed p h hm
  have hcount : h.diffLines.count x = 1 := List.count_eq_one_of_mem hnd hx
  have H := split_fold_inv h.diffLines [] ⟨[], none, none⟩ splitInit_inv
  rw [List.nil_append] at H
  obtain ⟨_, _, _, _, hcl⟩ := H
  have hc := (hcl x).2 hcount
  constructor
  · intro hty
    exact (hc.1 hty).1
  · intro hty
    have hb := hc.2 hty
    have hgoal : (linesOf (splitIntoSmallerHunks h)).count x
        = countQ x (h.diffLines.foldl splitStep ⟨[], none, none⟩) := rfl
    rw [hgoal]
    omega

/-- C1 (witness): the amended preservation applied to the `-b` line of a
concrete parsed hunk. -/
theorem split_information_content_witness :
    (linesOf (splitIntoSmallerHunks
        ((parsePatch "@@ -1,3 +1,3 @@\n a\n-b\n+B\n c".toList).getD 0
          dummyHunk))).count
      (((parsePatch "@@ -1,3 +1,3 @@\n a\n-b\n+B\n c".toList).getD 0
          dummyHunk).diffLines.getD 2 dummyLine) = 1 := by
  have H := split_information_content "@@ -1,3 +1,3 @@\n a\n-b\n+B\n c".toList
    ((parsePatch "@@ -1,3 +1,3 @@\n a\n-b\n+B\n c".toList).getD 0 dummyHunk)
    (by decide)
    (((parsePatch "@@ -1,3 +1,3 @@\n a\n-b\n+B\n c".toList).getD 0
        dummyHunk).diffLines.getD 2 dummyLine)
    (by decide)
  have h1 := H.1 (Or.inr (by decide))
  rw [h1, if_neg (by decide)]

/-- C2 (counterexample): the claim is false on both of its instances — a
record with `status="added"`, `additions=0`, no patch yields the rich
(`InMemFileChange`) representation, not a `SlimChange`; and with
`additions=3` it yields a `SlimChange`, not a rich representation. -/
theorem parseDiff_added_selection_claim_false :
    isSlim ((parseDiff [recAdd0] "p".toList).getD 0 dummyChange) = false
      ∧ isSlim ((parseDiff [recAdd3] "p".toList).getD 0 dummyChange) = true := by
  decide

/-- C2 (amended): for every raw record with `status="added"`, no patch text
and `additions = 0`, `parseDiff` produces the rich (`InMemFileChange`)
representation with empty stored patch and no parsed hunks; with
`additions = 3` it produces the `SlimChange` representation. -/
theorem parseDiff_added_no_patch_selection (p b f : List Char)
    (pf : Option (List Char)) :
    parseDiff [⟨"added".toList, none, 0, b, f, pf⟩] p
        = [FileChange.inMem p GitChangeType.ADD f pf [] none b]
      ∧ parseDiff [⟨"added".toList, none, 3, b, f, pf⟩] p
        = [FileChange.slim p b GitChangeType.ADD f pf] := by
  exact ⟨rfl, rfl⟩

/-- C4 (counterexample): reconstruction with the empty patch (which parses
to zero hunks) does not return every original content unchanged — CRLF
line endings are rewritten to LF. -/
theorem empty_patch_reconstruction_claim_false :
    parsePatch "".toList = []
      ∧ getModifiedContentFromDiffHunk "a\r\nb".toList "".toList
          = "a\nb".toList
      ∧ "a\nb".toList ≠ "a\r\nb".toList := by
  decide

/-- C5 (counterexample): recognition is not equivalent to the claimed
pattern with both ranges present — `@@ -1 @@` (no new range) and
`@@ -1 +2, @@` (comma with no count digits) are both recognized by the
source regex but do not match the claimed pattern. -/
theorem header_recognition_claim_false :
    (parseHunkHeader "@@ -1 @@".toList).isSome = true
      ∧ specHeaderClaimPattern "@@ -1 @@".toList = false
      ∧ (parseHunkHeader "@@ -1 +2, @@".toList).isSome = true
      ∧ specHeaderClaimPattern "@@ -1 +2, @@".toList = false := by
  decide

/-- C5 (amended): a line is recognized as a hunk header exactly when it
matches `@@ -<oldStart>[,<oldCount>]?[ +<newStart>[,[<newCount>]?]?]? @@`
(the entire new range may be absent, and the `<newCount>` digits after its
comma may be absent; trailing text after the closing `@@` is ignored), and
the decoded lengths default to 1 when a comma-count is absent — parsing
`@@ -5 +5 @@` yields `oldLength = 1` and `newLength = 1`. -/
theorem header_recognition_amended :
    (∀ l : List Char,
        (parseHunkHeader l).isSome = true ↔ SpecHeaderShapeAmended l)
      ∧ ((parsePatch "@@ -5 +5 @@".toList).getD 0 dummyHunk).oldLength = 1
      ∧ ((parsePatch "@@ -5 +5 @@".toList).getD 0 dummyHunk).newLength = 1 :=
  ⟨fun l => ⟨header_isSome_imp_shape l, shape_imp_header_isSome l⟩,
    by decide, by decide⟩

/-- C6 (counterexample): the line/number invariant fails as stated over
every stored line: the synthetic `Control` header line of any parsed hunk
has `oldLineNumber = -1` without being an `Add` line. -/
theorem line_number_invariant_claim_false :
    (linesOf (parsePatch "@@ -1 +1 @@".toList)).any
        (fun l => !((l.type == DiffChangeType.Add)
          == (l.oldLineNumber == some (-1)))) = true := by
  decide

/-- C7 (confirmed): reconstructing `"a\nb\nc\nd\n"` with the patch
`@@ -1,4 +1,4 @@` / ` a` / `-b` / `+B` / ` c` / ` d` yields exactly
`"a\nB\nc\nd\n"`. -/
theorem reconstruction_roundtrip_example :
    getModifiedContentFromDiffHunk "a\nb\nc\nd\n".toList
        "@@ -1,4 +1,4 @@\n a\n-b\n+B\n c\n d".toList
      = "a\nB\nc\nd\n".toList := by
  decide

/-- C3 (confirmed): `parseDiff` produces the `SlimFileChange` variant for a
record exactly when the record has no (JS-truthy) patch text, its mapped
kind is neither `RENAME` nor `MODIFY`, and it is not an `ADD` with
`additions = 0`; in every other case it produces an `InMemFileChange`
whose parsed hunks are present iff the patch text is present. -/
theorem parseDiff_slim_rich_selection (parent : List Char)
    (r : IRawFileChange) :
    (isSlim (parseDiffOne parent r) = true ↔
      (jsTruthyStr r.patch = false
        ∧ getGitChangeType r.status ≠ GitChangeType.RENAME
        ∧ getGitChangeType r.status ≠ GitChangeType.MODIFY
        ∧ ¬(getGitChangeType r.status = GitChangeType.ADD
              ∧ r.additions = 0)))
    ∧ hunksPresent (parseDiffOne parent r)
        = (!(isSlim (parseDiffOne parent r)) && jsTruthyStr r.patch) := by
  cases hpt : jsTruthyStr r.patch <;>
    cases hk : getGitChangeType r.status <;>
      cases hadd : r.additions == 0
  all_goals
    first
    | (have heq : r.additions = 0 := eq_of_beq hadd
       simp [parseDiffOne, isSlim, hunksPresent, hpt, hk, hadd, heq])
    | (have hne : r.additions ≠ 0 := ne_of_beq_false hadd
       simp [parseDiffOne, isSlim, hunksPresent, hpt, hk, hadd, hne])

/-- C4 (amended): reconstruction with a patch that parses to zero hunks
returns the original content with each CRLF rewritten to LF — in
particular, the original content unchanged whenever it contains no CRLF
pair. -/
theorem empty_patch_reconstruction (orig patch : List Char)
    (h : parsePatch patch = []) :
    getModifiedContentFromDiffHunk orig patch = normalizeCRLF orig
      ∧ (hasCRLF orig = false →
          getModifiedContentFromDiffHunk orig patch = orig) := by
  have h1 := getModified_zero_hunks orig patch h
  have h2 := joinNL_splitRN orig
  refine ⟨h1.trans h2, fun hno => ?_⟩
  rw [h1, h2, normalizeCRLF_id orig hno]

/-- C4 (witness): concrete instance of the amended empty-patch claim. -/
theorem empty_patch_reconstruction_witness :
    getModifiedContentFromDiffHunk "abc\ndef".toList "".toList
      = "abc\ndef".toList :=
  (empty_patch_reconstruction "abc\ndef".toList "".toList (by decide)).2
    (by decide)

/-- C6 (amended): for every non-`Control` line stored in any hunk produced
by `parsePatch`, `(kind = Add)` holds exactly when `oldLineNumber = -1`
and `(kind = Delete)` holds exactly when `newLineNumber = -1`. -/
theorem line_number_invariant (patch : List Char) (h : DiffHunk)
    (hm : h ∈ parsePatch patch) (l : DiffLine) (hl : l ∈ h.diffLines)
    (hctl : l.type ≠ DiffChangeType.Control) :
    (l.type = DiffChangeType.Add ↔ l.oldLineNumber = some (-1))
      ∧ (l.type = DiffChangeType.Delete ↔ l.newLineNumber = some (-1)) := by
  obtain ⟨inv, heq⟩ := parsePatch_inv patch
  obtain ⟨_, _, _, _, _, _, _, hH⟩ := inv
  refine hH l ?_ hctl
  rw [heq] at hm
  exact mem_linesOf hm hl

/-- C6 (witness): the amended invariant applied to the `+x` line of a
concrete parsed patch. -/
theorem line_number_invariant_witness :
    (((parsePatch "@@ -1 +1 @@\n+x".toList).getD 0 dummyHunk).diffLines.getD 1
        dummyLine).oldLineNumber = some (-1) := by
  have h := line_number_invariant "@@ -1 +1 @@\n+x".toList
    ((parsePatch "@@ -1 +1 @@\n+x".toList).getD 0 dummyHunk) (by decide)
    (((parsePatch "@@ -1 +1 @@\n+x".toList).getD 0 dummyHunk).diffLines.getD 1
      dummyLine) (by decide) (by decide)
  exact h.1.mp (by decide)

/-- C8 (confirmed): for every patch, the `positionInHunk` values of the
stored lines of all emitted hunks, concatenated in emission order, are
strictly increasing, and the first one (if any) is 0. -/
theorem monotonic_positionInHunk (patch : List Char) :
    List.Chain' (· < ·) (hunkPositions (parsePatch patch))
      ∧ (hunkPositions (parsePatch patch)).head?.getD 0 = 0 := by
  obtain ⟨inv, heq⟩ := parsePatch_inv patch
  obtain ⟨_, _, _, hD, _, hF, _, _⟩ := inv
  have hpp : hunkPositions (parsePatch patch)
      = allPos ((lineReader patch).foldl parseStep parseInit) := by
    rw [heq]; rfl
  rw [hpp]
  exact ⟨hD.chain', hF⟩

/-- C9 (confirmed): `parsePatch` is total — it returns a (possibly empty)
hunk list on every input — and degrades gracefully: an input none of whose
scanned lines is recognized as a hunk header yields no hunks at all. -/
theorem parsePatch_total_graceful (s : List Char) :
    ∃ hs : List DiffHunk, parsePatch s = hs
      ∧ ((∀ l ∈ lineReader s, parseHunkHeader l = none) → hs = []) := by
  refine ⟨parsePatch s, rfl, fun hnone => ?_⟩
  show parsePatch s = []
  unfold parsePatch parseDiffHunk
  rw [no_header_fold _ hnone]
  rfl

/-- C9 (witness): a fully malformed input parses to no hunks without
error. -/
theorem parsePatch_total_graceful_witness :
    parsePatch "hello\nworld\n@@ bad @@".toList = [] := by
  obtain ⟨hs, h1, h2⟩ :=
    parsePatch_total_graceful "hello\nworld\n@@ bad @@".toList
  rw [h1]
  exact h2 (by decide)

/-- C10 (confirmed): an explicit `,0` count in a hunk header is recorded as
length 1 on that side, exactly as when the count is omitted. -/
theorem header_zero_count_recorded_as_one :
    (((parsePatch "@@ -1,0 +1,2 @@".toList).getD 0 dummyHunk).oldLength = 1
        ∧ ((parsePatch "@@ -1,0 +1,2 @@".toList).getD 0 dummyHunk).newLength = 2)
      ∧ (((parsePatch "@@ -3,2 +3,0 @@".toList).getD 0 dummyHunk).newLength = 1
        ∧ ((parsePatch "@@ -3,2 +3,0 @@".toList).getD 0 dummyHunk).oldLength = 2)
      ∧ ((parsePatch "@@ -1,0 +1,2 @@".toList).getD 0 dummyHunk).oldLength
        = ((parsePatch "@@ -1 +1,2 @@".toList).getD 0 dummyHunk).oldLength := by
  decide

end DiffHunkTs
